import Mathlib

/-!
# Memory-hard proof-of-work kernel (`memory-pow.c`, `test.c`)

A shallow embedding of the C sources under `src/main/wasm/memory-pow/`.

* `uint8_t`, `uint32_t`, `uint64_t` values are natural numbers; every operation that can
  leave the width in C is followed by an explicit `% 2 ^ 32` / `% 2 ^ 64`.
* `int` values are integers.
* `uint64_t x[4]` (the generator state and `longHash`) is the structure `Words`.
* Memory reached through a pointer (`hash`, `workBuffer`) is a list of cells; an access
  outside the list, or a modulus by zero, is undefined behaviour and makes the embedded
  function answer `none` (`Outcome.undefined` for `compute2`).
* The `do … while` loop of `compute2` need not terminate, so `compute2` takes a bound on the
  number of attempts it may run (`fuel`) and answers `Outcome.outOfFuel` when the bound is hit.
-/

namespace MemoryPoW

/-! ## Data model -/

/-- A C array `uint64_t x[4]`: the generator state `state[4]` and the packed digest
`longHash[4]`. -/
structure Words where
  w0 : Nat
  w1 : Nat
  w2 : Nat
  w3 : Nat
deriving DecidableEq

/-- Every cell of a `uint64_t[4]` holds a 64-bit value. -/
def Words.WF (s : Words) : Prop :=
  s.w0 < 2 ^ 64 ∧ s.w1 < 2 ^ 64 ∧ s.w2 < 2 ^ 64 ∧ s.w3 < 2 ^ 64

instance (s : Words) : Decidable s.WF := by
  unfold Words.WF; infer_instance

/-- The macro `INTEGER_MAX_VALUE` (`0x7fffffffULL`). -/
def INTEGER_MAX_VALUE : Nat := 0x7fffffff

/-- Conversion of an `int` to `unsigned int` (reduction modulo `2 ^ 32`). -/
def toUInt32 (x : Int) : Nat := (x % 2 ^ 32).toNat

/-- Conversion of an `unsigned int` to `int` (two's complement reinterpretation). -/
def toInt32 (x : Nat) : Int :=
  if x % 2 ^ 32 < 2 ^ 31 then ((x % 2 ^ 32 : Nat) : Int) else ((x % 2 ^ 32 : Nat) : Int) - 2 ^ 32

/-! ## `memory-pow.c` -/

/-- The function `uint64_t xoshiro256p(uint64_t state[])`: the returned value and the state
left in the array. -/
def xoshiro256p (state : Words) : Nat × Words :=
  let result := (state.w0 + state.w3) % 2 ^ 64
  let temp := (state.w1 <<< 17) % 2 ^ 64
  let s2 := state.w2 ^^^ state.w0
  let s3 := state.w3 ^^^ state.w1
  let s1 := state.w1 ^^^ s2
  let s0 := state.w0 ^^^ s3
  let s2 := s2 ^^^ temp
  let s3 := ((s3 <<< 45) % 2 ^ 64) ||| (s3 >>> (64 - 45))
  (result, { w0 := s0, w1 := s1, w2 := s2, w3 := s3 })

/-- One guarded step of `numberOfLeadingZeros32`:
`if (i >= 1 << k) { n -= k; i >>= k; }`. -/
def nlzStep (k : Nat) (p : Int × Nat) : Int × Nat :=
  if p.2 ≥ 1 <<< k then (p.1 - k, p.2 >>> k) else p

/-- The function `int numberOfLeadingZeros32(uint32_t i)`. The last line subtracts an
`unsigned int` from an `int`, which C evaluates in `unsigned int` and converts back. -/
def numberOfLeadingZeros32 (i : Nat) : Int :=
  if i ≤ 0 then
    (if i = 0 then 32 else 0)
  else
    let p := nlzStep 2 (nlzStep 4 (nlzStep 8 (nlzStep 16 (31, i))))
    toInt32 ((toUInt32 p.1 + 2 ^ 32 - (p.2 >>> 1)) % 2 ^ 32)

/-- The function `int numberOfLeadingZeros64(uint64_t i)`. -/
def numberOfLeadingZeros64 (i : Nat) : Int :=
  let x := (i >>> 32) % 2 ^ 32
  if x = 0 then 32 + numberOfLeadingZeros32 (i % 2 ^ 32) else numberOfLeadingZeros32 x

/-- The inner loop `for (int b = 0; b < 8; ++b) longHash[l] = longHash[l] << 8 | hash[l * 8 + b];`
with `count` iterations left, the next one at index `b`, on the word `w`. -/
def packLoop (hash : List Nat) (l : Nat) : Nat → Nat → Nat → Option Nat
  | 0, _, w => some w
  | count + 1, b, w =>
    match hash[l * 8 + b]? with
    | none => none
    | some byte => packLoop hash l count (b + 1) (((w <<< 8) % 2 ^ 64) ||| byte)

/-- The word `longHash[l]` after the body of the outer loader loop: it is set to zero and
the eight bytes `hash[8 * l], …, hash[8 * l + 7]` are shifted in. -/
def packWord (hash : List Nat) (l : Nat) : Option Nat :=
  packLoop hash l 8 0 0

/-- The loader at the head of `compute2`, `for (int l = 0; l < 4; ++l) …`: the four words of
`longHash`. -/
def loadLongHash (hash : List Nat) : Option Words :=
  match packWord hash 0, packWord hash 1, packWord hash 2, packWord hash 3 with
  | some a, some b, some c, some d => some { w0 := a, w1 := b, w2 := c, w3 := d }
  | _, _, _, _ => none

/-- The initial value of the local `seed` of `compute2`. -/
def seedInit : Nat := 8682522807148012

/-- The local `seedMultiplier` of `compute2`. -/
def seedMultiplier : Nat := 1181783497276652981

/-- The four assignments `state[i] = longHash[i] ^ seed;` of `compute2`. -/
def deriveState (longHash : Words) (seed : Nat) : Words :=
  { w0 := longHash.w0 ^^^ seed
    w1 := longHash.w1 ^^^ seed
    w2 := longHash.w2 ^^^ seed
    w3 := longHash.w3 ^^^ seed }

/-- The fill loop `for (uint32_t i = 0; i < longBufferLength; ++i) workBuffer[i] = xoshiro256p(state);`
with `count` iterations left and the next one at index `i`. A write outside the buffer is
undefined behaviour. -/
def fillLoop : Nat → Nat → Words → List Nat → Option (Words × List Nat)
  | 0, _, state, workBuffer => some (state, workBuffer)
  | count + 1, i, state, workBuffer =>
    let r := xoshiro256p state
    if i < workBuffer.length then
      fillLoop count (i + 1) r.2 (workBuffer.set i r.1)
    else none

/-- The bounce loop
`for (uint32_t i = 0; i < 1024; ++i) { index = (uint32_t) (xoshiro256p(state) & INTEGER_MAX_VALUE) % longBufferLength; result ^= workBuffer[index]; }`
with `count` iterations left. A modulus by zero or a read outside the buffer is undefined
behaviour. -/
def bounceLoop (workBuffer : List Nat) (longBufferLength : Nat) :
    Nat → Words → Nat → Option (Nat × Words)
  | 0, state, result => some (result, state)
  | count + 1, state, result =>
    let r := xoshiro256p state
    if longBufferLength = 0 then none
    else
      let index := ((r.1 &&& INTEGER_MAX_VALUE) % 2 ^ 32) % longBufferLength
      match workBuffer[index]? with
      | none => none
      | some w => bounceLoop workBuffer longBufferLength count r.2 (result ^^^ w)

/-- The locals of `compute2` that live across iterations of its `do … while` loop. -/
structure Locals where
  nonce : Nat
  seed : Nat
  state : Words
  workBuffer : List Nat
  result : Nat
deriving DecidableEq

/-- The part of the loop body of `compute2` that follows the assignments to `state`: fill the
buffer, read `workBuffer[0]` and bounce 1024 times. Gives the state, the buffer and `result`
as they are when the `while` test is reached. -/
def runAttempt (longBufferLength : Nat) (state : Words) (workBuffer : List Nat) :
    Option (Words × List Nat × Nat) :=
  match fillLoop longBufferLength 0 state workBuffer with
  | none => none
  | some (state, workBuffer) =>
    match workBuffer[0]? with
    | none => none
    | some result =>
      match bounceLoop workBuffer longBufferLength 1024 state result with
      | none => none
      | some (result, state) => some (state, workBuffer, result)

/-- The body of the `do … while` loop of `compute2`: `++nonce; seed *= seedMultiplier;`, the
four assignments to `state`, and the attempt. -/
def loopBody (longHash : Words) (longBufferLength : Nat) (v : Locals) : Option Locals :=
  let nonce := (v.nonce + 1) % 2 ^ 32
  let seed := (v.seed * seedMultiplier) % 2 ^ 64
  let state := deriveState longHash seed
  match runAttempt longBufferLength state v.workBuffer with
  | none => none
  | some (state, workBuffer, result) =>
    some { nonce := nonce, seed := seed, state := state, workBuffer := workBuffer,
           result := result }

/-- How a run of `compute2` ends. -/
inductive Outcome (α : Type) where
  | returned (v : α)
  | undefined
  | outOfFuel
deriving DecidableEq

/-- The loop `do { … } while (numberOfLeadingZeros64(result) < difficulty);` of `compute2`,
run for at most `fuel` iterations; on exit it gives the locals. -/
def compute2Loop (longHash : Words) (longBufferLength : Nat) (difficulty : Int) :
    Nat → Locals → Outcome Locals
  | 0, _ => Outcome.outOfFuel
  | fuel + 1, v =>
    match loopBody longHash longBufferLength v with
    | none => Outcome.undefined
    | some v1 =>
      if numberOfLeadingZeros64 v1.result < difficulty then
        compute2Loop longHash longBufferLength difficulty fuel v1
      else Outcome.returned v1

/-- The locals of `compute2` on entry to its loop: `nonce = -1` (as `uint32_t`),
`seed = 8682522807148012`, `state = { 0, 0, 0, 0 }`, `result = 0`. -/
def initLocals (workBuffer : List Nat) : Locals :=
  { nonce := 2 ^ 32 - 1, seed := seedInit, state := { w0 := 0, w1 := 0, w2 := 0, w3 := 0 },
    workBuffer := workBuffer, result := 0 }

/-- The run of `compute2` up to the exit of its loop: the locals at `return nonce;`. -/
def compute2Run (fuel : Nat) (hash : List Nat) (workBuffer : List Nat) (workBufferLength : Nat)
    (difficulty : Int) : Outcome Locals :=
  match loadLongHash hash with
  | none => Outcome.undefined
  | some longHash =>
    compute2Loop longHash (workBufferLength / 8) difficulty fuel (initLocals workBuffer)

/-- The function
`uint32_t compute2(uint8_t *hash, uint64_t *workBuffer, uint32_t workBufferLength, int difficulty)`
run for at most `fuel` attempts. -/
def compute2 (fuel : Nat) (hash : List Nat) (workBuffer : List Nat) (workBufferLength : Nat)
    (difficulty : Int) : Outcome Nat :=
  match compute2Run fuel hash workBuffer workBufferLength difficulty with
  | Outcome.returned v => Outcome.returned v.nonce
  | Outcome.undefined => Outcome.undefined
  | Outcome.outOfFuel => Outcome.outOfFuel

/-! ## `test.c` -/

namespace Test

/-- The inner loop of `test3`,
`for (int b = 0; b < 8; ++b) longHash[l] = longHash[l] << 8 | hash[l * 8 + b];`
with `count` iterations left, the next one at index `b`, on the word `w`. -/
def test3Loop (hash : List Nat) (l : Nat) : Nat → Nat → Nat → Option Nat
  | 0, _, w => some w
  | count + 1, b, w =>
    match hash[l * 8 + b]? with
    | none => none
    | some byte => test3Loop hash l count (b + 1) (((w <<< 8) % 2 ^ 64) ||| byte)

/-- The function `void test3(uint8_t hash[], uint64_t longHash[])`: the four words stored
in `longHash`. -/
def test3 (hash : List Nat) : Option Words :=
  match test3Loop hash 0 8 0 0, test3Loop hash 1 8 0 0, test3Loop hash 2 8 0 0,
    test3Loop hash 3 8 0 0 with
  | some a, some b, some c, some d => some { w0 := a, w1 := b, w2 := c, w3 := d }
  | _, _, _, _ => none

/-- The function `void test4(uint64_t *result)`: the value stored in `*result`. -/
def test4 : Nat := (8682522807148012 * 1181783497276652981) % 2 ^ 64

/-- The function `void test5(uint64_t longHash[], uint64_t state[])`: the state stored. -/
def test5 (longHash : Words) : Words :=
  let seed := (8682522807148012 * 1181783497276652981) % 2 ^ 64
  { w0 := longHash.w0 ^^^ seed
    w1 := longHash.w1 ^^^ seed
    w2 := longHash.w2 ^^^ seed
    w3 := longHash.w3 ^^^ seed }

/-- The function `void xoshiro256p(uint64_t state[], uint64_t *result)` of `test.c`: the value
stored in `*result` and the state left in the array. -/
def xoshiro256p (state : Words) : Nat × Words :=
  let result := (state.w0 + state.w3) % 2 ^ 64
  let temp := (state.w1 <<< 17) % 2 ^ 64
  let s2 := state.w2 ^^^ state.w0
  let s3 := state.w3 ^^^ state.w1
  let s1 := state.w1 ^^^ s2
  let s0 := state.w0 ^^^ s3
  let s2 := s2 ^^^ temp
  let s3 := ((s3 <<< 45) % 2 ^ 64) ||| (s3 >>> (64 - 45))
  (result, { w0 := s0, w1 := s1, w2 := s2, w3 := s3 })

/-- The loop of `fillWorkBuffer`,
`for (uint32_t i = 0; i < workBufferLength; ++i) xoshiro256p(state, &workBuffer[i]);`
with `count` iterations left and the next one at index `i`. -/
def fillWorkBufferLoop : Nat → Nat → Words → List Nat → Option (Words × List Nat)
  | 0, _, state, workBuffer => some (state, workBuffer)
  | count + 1, i, state, workBuffer =>
    let r := xoshiro256p state
    if i < workBuffer.length then
      fillWorkBufferLoop count (i + 1) r.2 (workBuffer.set i r.1)
    else none

/-- The function `void fillWorkBuffer(uint64_t workBuffer[], int workBufferLength, uint64_t state[])`.
The loop test compares the `uint32_t` counter with the `int` length, which C converts to
`unsigned int`. -/
def fillWorkBuffer (workBuffer : List Nat) (workBufferLength : Int) (state : Words) :
    Option (Words × List Nat) :=
  fillWorkBufferLoop (toUInt32 workBufferLength) 0 state workBuffer

end Test

/-! ## Reference notions used to state the properties -/

/-- The number below `2 ^ n` whose bit `j` is `f j`, for `j < n`. -/
def ofBits (f : Nat → Bool) : Nat → Nat
  | 0 => 0
  | n + 1 => ofBits f n + (if f n then 2 ^ n else 0)

/-- Left rotation of a 64-bit word by `k` places, bit by bit: bit `j` of the result is bit
`(j + (64 - k)) % 64` of `x`, that is, bit `i` of `x` moves to place `(i + k) % 64`. -/
def rotl64 (x k : Nat) : Nat :=
  ofBits (fun j => x.testBit ((j + (64 - k)) % 64)) 64

/-- A 32-byte digest: 32 cells, each holding a `uint8_t`. -/
def IsDigest (hash : List Nat) : Prop :=
  hash.length = 32 ∧ ∀ x ∈ hash, x < 256

instance (hash : List Nat) : Decidable (IsDigest hash) := by
  unfold IsDigest; infer_instance

/-- Big-endian value of the eight bytes `hash[8 * l], …, hash[8 * l + 7]`:
the sum over `b < 8` of `hash[8 * l + b] * 256 ^ (7 - b)`. -/
def bigEndianWord (hash : List Nat) (l : Nat) : Nat :=
  ∑ b in Finset.range 8, hash.getD (8 * l + b) 0 * 256 ^ (7 - b)


/-- The generator state after `k` consecutive calls of `xoshiro256p` started from `s`. -/
def stateAfter (s : Words) : Nat → Words
  | 0 => s
  | k + 1 => stateAfter (xoshiro256p s).2 k

/-- The value returned by call number `i + 1` among consecutive calls of `xoshiro256p` started
from `s`. -/
def outputAt (s : Words) (i : Nat) : Nat :=
  (xoshiro256p (stateAfter s i)).1

/-- The value `acc ^ f 0 ^ f 1 ^ … ^ f (k - 1)`. -/
def xorFold (f : Nat → Nat) : Nat → Nat → Nat
  | 0, acc => acc
  | k + 1, acc => xorFold f k acc ^^^ f k

/-- The accumulated result of an attempt, written with the generator outputs alone: with
`B i` the output of call `i + 1` and `r j` the output of call `n + j + 1`, it is
`B 0 ^ B ((r 0 mod 2^31) mod n) ^ … ^ B ((r 1023 mod 2^31) mod n)`. -/
def attemptResult (n : Nat) (s : Words) : Nat :=
  xorFold (fun j => outputAt s ((outputAt s (n + j) % 2 ^ 31) % n)) 1024 (outputAt s 0)

/-- The seed of attempt number `k` (the first attempt is number 0):
`8682522807148012 * 1181783497276652981 ^ (k + 1) mod 2 ^ 64`. -/
def seedAt (k : Nat) : Nat :=
  (8682522807148012 * 1181783497276652981 ^ (k + 1)) % 2 ^ 64

/-- The locals of `compute2` after `k` passes through its loop body, the `while` test left
out. -/
def iterBody (longHash : Words) (longBufferLength : Nat) : Nat → Locals → Option Locals
  | 0, v => some v
  | k + 1, v =>
    match loopBody longHash longBufferLength v with
    | none => none
    | some v1 => iterBody longHash longBufferLength k v1

/-- The 32-byte digest made of four big-endian copies of the first seed
`8682522807148012 * 1181783497276652981 mod 2^64`: byte `i` is byte `i mod 8` of the seed,
most significant first. -/
def degenerateDigest : List Nat :=
  (List.range 32).map
    (fun i => ((8682522807148012 * 1181783497276652981) % 2 ^ 64) / 256 ^ (7 - i % 8) % 256)

/-! ## The generator -/

theorem ofBits_lt (f : Nat → Bool) (n : Nat) : ofBits f n < 2 ^ n := by
  induction n with
  | zero => simp [ofBits]
  | succ n ih =>
    simp only [ofBits]
    split <;> omega

theorem testBit_ofBits (f : Nat → Bool) (n i : Nat) :
    (ofBits f n).testBit i = (decide (i < n) && f i) := by
  induction n with
  | zero => simp [ofBits]
  | succ n ih =>
    simp only [ofBits]
    have hlt := ofBits_lt f n
    rcases Nat.lt_trichotomy i n with h | h | h
    · have e : ∀ b : Nat, (ofBits f n + b * 2 ^ n).testBit i = (ofBits f n).testBit i := by
        intro b
        rw [Nat.add_comm, Nat.mul_comm, Nat.testBit_mul_pow_two_add _ hlt, if_pos h]
      by_cases hf : f n
      · have := e 1
        simp only [Nat.one_mul] at this
        simp [hf, this, ih, h, Nat.lt_succ_of_lt h]
      · simp [hf, ih, h, Nat.lt_succ_of_lt h]
    · subst h
      by_cases hf : f i
      · rw [if_pos hf, Nat.add_comm, Nat.testBit_two_pow_add_eq, Nat.testBit_lt_two_pow hlt]
        simp [hf]
      · simp [hf, Nat.testBit_lt_two_pow hlt]
    · have h1 : ¬ i < n + 1 := by omega
      have hb : ofBits f n + (if f n then 2 ^ n else 0) < 2 ^ i := by
        have h2 : 2 ^ (n + 1) ≤ 2 ^ i := Nat.pow_le_pow_right (by decide) h
        have h3 : 2 ^ (n + 1) = 2 * 2 ^ n := by ring
        split <;> omega
      simp [h1, Nat.testBit_lt_two_pow hb]

theorem testBit_high_false {x n i : Nat} (hx : x < 2 ^ n) (hi : n ≤ i) :
    x.testBit i = false :=
  Nat.testBit_lt_two_pow (lt_of_lt_of_le hx (Nat.pow_le_pow_right (by decide) hi))

/-- The C idiom `(x << 45) | (x >> (64 - 45))` on a 64-bit word is the rotation by 45. -/
theorem rol_idiom_eq_rotl64 (x : Nat) (hx : x < 2 ^ 64) :
    ((x <<< 45) % 2 ^ 64) ||| (x >>> (64 - 45)) = rotl64 x 45 := by
  apply Nat.eq_of_testBit_eq
  intro i
  rw [rotl64, testBit_ofBits, Nat.testBit_or, Nat.testBit_mod_two_pow, Nat.testBit_shiftLeft,
    Nat.testBit_shiftRight]
  by_cases h1 : i < 45
  · have e : (i + (64 - 45)) % 64 = 64 - 45 + i := by omega
    have h2 : i < 64 := by omega
    have h3 : ¬ i ≥ 45 := by omega
    simp [e, h2, h3]
  · by_cases h2 : i < 64
    · have e : (i + (64 - 45)) % 64 = i - 45 := by omega
      have h3 : i ≥ 45 := by omega
      have h4 : x.testBit (64 - 45 + i) = false := testBit_high_false hx (by omega)
      simp [e, h2, h3, h4]
    · have h4 : x.testBit (64 - 45 + i) = false := testBit_high_false hx (by omega)
      simp [h2, h4]

theorem xoshiro256p_fst (s : Words) : (xoshiro256p s).1 = (s.w0 + s.w3) % 2 ^ 64 := rfl

theorem xoshiro256p_fst_lt (s : Words) : (xoshiro256p s).1 < 2 ^ 64 :=
  Nat.mod_lt _ (by decide)

/-- C3: for every state of four 64-bit words, `xoshiro256p` returns `(s0 + s3) mod 2^64`
taken from the state on entry, and leaves the state
`(s0 ^ s3 ^ s1, s1 ^ s2 ^ s0, s2 ^ s0 ^ ((s1 << 17) mod 2^64), rotl64 (s3 ^ s1) 45)`, where
`rotl64` is the bit-by-bit left rotation of a 64-bit word. -/
theorem xoshiro256p_exact (s : Words) (h : s.WF) :
    xoshiro256p s =
      ((s.w0 + s.w3) % 2 ^ 64,
        { w0 := s.w0 ^^^ s.w3 ^^^ s.w1
          w1 := s.w1 ^^^ s.w2 ^^^ s.w0
          w2 := s.w2 ^^^ s.w0 ^^^ (s.w1 * 2 ^ 17 % 2 ^ 64)
          w3 := rotl64 (s.w3 ^^^ s.w1) 45 }) := by
  obtain ⟨h0, h1, h2, h3⟩ := h
  have hx : s.w3 ^^^ s.w1 < 2 ^ 64 := Nat.xor_lt_two_pow h3 h1
  rw [← rol_idiom_eq_rotl64 _ hx]
  simp only [xoshiro256p, Nat.shiftLeft_eq, Nat.xor_assoc]

/-- C3, at the state `(1, 2, 3, 4)`. -/
theorem xoshiro256p_exact_witness :
    (Words.mk 1 2 3 4).WF ∧
      xoshiro256p (Words.mk 1 2 3 4) =
        ((1 + 4) % 2 ^ 64,
          { w0 := 1 ^^^ 4 ^^^ 2
            w1 := 2 ^^^ 3 ^^^ 1
            w2 := 3 ^^^ 1 ^^^ (2 * 2 ^ 17 % 2 ^ 64)
            w3 := rotl64 (4 ^^^ 2) 45 }) :=
  ⟨by decide, xoshiro256p_exact (Words.mk 1 2 3 4) (by decide)⟩


/-! ## Leading zeros -/

theorem log_two_div_pow (i k : Nat) : Nat.log 2 (i / 2 ^ k) = Nat.log 2 i - k := by
  induction k with
  | zero => simp
  | succ k ih =>
    rw [Nat.pow_succ, ← Nat.div_div_eq_div_mul, Nat.log_div_base, ih]
    omega

/-- What one guarded step of `numberOfLeadingZeros32` preserves: `n - ⌊log₂ i⌋` stays the
same, `i` stays positive, and `i` drops below `2 ^ k` when it was below `2 ^ (2 k)`. -/
theorem nlzStep_spec (k : Nat) (n : Int) (i : Nat) (hi : 0 < i) (hb : i < 2 ^ (k + k)) :
    0 < (nlzStep k (n, i)).2 ∧ (nlzStep k (n, i)).2 < 2 ^ k ∧
      (nlzStep k (n, i)).1 - (Nat.log 2 (nlzStep k (n, i)).2 : Int) =
        n - (Nat.log 2 i : Int) := by
  unfold nlzStep
  simp only [Nat.shiftLeft_eq, Nat.one_mul, Nat.shiftRight_eq_div_pow, ge_iff_le]
  have hk : 0 < 2 ^ k := Nat.pow_pos (by decide)
  by_cases h : 2 ^ k ≤ i
  · rw [if_pos h]
    have h1 : k ≤ Nat.log 2 i := Nat.le_log_of_pow_le (by decide) h
    refine ⟨Nat.div_pos h hk, ?_, ?_⟩
    · rw [Nat.div_lt_iff_lt_mul hk, ← Nat.pow_add]
      exact hb
    · simp only [log_two_div_pow]
      omega
  · rw [if_neg h]
    exact ⟨hi, by omega, rfl⟩

theorem numberOfLeadingZeros32_zero : numberOfLeadingZeros32 0 = 32 := by decide

/-- Exactness of the 32-bit count on a positive 32-bit value. -/
theorem numberOfLeadingZeros32_pos (i : Nat) (hi : 0 < i) (hb : i < 2 ^ 32) :
    numberOfLeadingZeros32 i = 31 - (Nat.log 2 i : Int) := by
  have hL : Nat.log 2 i < 32 := Nat.log_lt_of_lt_pow (by omega) hb
  have hi0 : ¬ i ≤ 0 := by omega
  unfold numberOfLeadingZeros32
  rw [if_neg hi0]
  obtain ⟨a1, a2, a3⟩ := nlzStep_spec 16 31 i hi hb
  generalize nlzStep 16 (31, i) = p1 at a1 a2 a3 ⊢
  obtain ⟨n1, i1⟩ := p1
  obtain ⟨b1, b2, b3⟩ := nlzStep_spec 8 n1 i1 a1 a2
  generalize nlzStep 8 (n1, i1) = p2 at b1 b2 b3 ⊢
  obtain ⟨n2, i2⟩ := p2
  obtain ⟨c1, c2, c3⟩ := nlzStep_spec 4 n2 i2 b1 b2
  generalize nlzStep 4 (n2, i2) = p3 at c1 c2 c3 ⊢
  obtain ⟨n3, i3⟩ := p3
  obtain ⟨d1, d2, d3⟩ := nlzStep_spec 2 n3 i3 c1 c2
  generalize nlzStep 2 (n3, i3) = p4 at d1 d2 d3 ⊢
  obtain ⟨n4, i4⟩ := p4
  simp only at a1 a2 a3 b1 b2 b3 c1 c2 c3 d1 d2 d3 ⊢
  have e : Nat.log 2 i4 = i4 >>> 1 := by
    have : i4 = 1 ∨ i4 = 2 ∨ i4 = 3 := by omega
    rcases this with h | h | h <;> subst h
    · simp
    · exact Nat.log_eq_of_pow_le_of_lt_pow (by decide) (by decide)
    · exact Nat.log_eq_of_pow_le_of_lt_pow (by decide) (by decide)
  have h4 : Nat.log 2 i4 ≤ 1 := by
    rw [e, Nat.shiftRight_eq_div_pow]; omega
  rw [← e]
  generalize Nat.log 2 i4 = l4 at *
  generalize Nat.log 2 i3 = l3 at *
  generalize Nat.log 2 i2 = l2 at *
  generalize Nat.log 2 i1 = l1 at *
  generalize Nat.log 2 i = l at *
  unfold toInt32 toUInt32
  have hn : n4 = 31 - (l : Int) + (l4 : Int) := by omega
  subst hn
  split <;> omega

theorem numberOfLeadingZeros64_zero : numberOfLeadingZeros64 0 = 64 := by decide

/-- Exactness of the 64-bit count on a positive 64-bit value. -/
theorem numberOfLeadingZeros64_pos (x : Nat) (hx : 0 < x) (hb : x < 2 ^ 64) :
    numberOfLeadingZeros64 x = 63 - (Nat.log 2 x : Int) := by
  unfold numberOfLeadingZeros64
  simp only [Nat.shiftRight_eq_div_pow]
  have hq : x / 2 ^ 32 < 2 ^ 32 := by omega
  rw [Nat.mod_eq_of_lt hq]
  by_cases h : x / 2 ^ 32 = 0
  · rw [if_pos h]
    have hlt : x < 2 ^ 32 := by omega
    rw [Nat.mod_eq_of_lt hlt, numberOfLeadingZeros32_pos x hx hlt]
    omega
  · rw [if_neg h, numberOfLeadingZeros32_pos _ (by omega) hq, log_two_div_pow]
    have h1 : 2 ^ 32 ≤ x := by omega
    have h2 : 32 ≤ Nat.log 2 x := Nat.le_log_of_pow_le (by decide) h1
    omega

/-- The 64-bit count lies between 0 and 64. -/
theorem numberOfLeadingZeros64_range (x : Nat) (hb : x < 2 ^ 64) :
    0 ≤ numberOfLeadingZeros64 x ∧ numberOfLeadingZeros64 x ≤ 64 := by
  rcases Nat.eq_zero_or_pos x with h | h
  · subst h; decide
  · rw [numberOfLeadingZeros64_pos x h hb]
    have hL : Nat.log 2 x < 64 := Nat.log_lt_of_lt_pow (by omega) hb
    omega

/-- A 64-bit value with at least one leading zero has its top bit clear. -/
theorem lt_of_one_le_numberOfLeadingZeros64 (x : Nat) (hb : x < 2 ^ 64)
    (h : 1 ≤ numberOfLeadingZeros64 x) : x < 2 ^ 63 := by
  rcases Nat.eq_zero_or_pos x with h0 | h0
  · subst h0; decide
  · rw [numberOfLeadingZeros64_pos x h0 hb] at h
    have hL : Nat.log 2 x < 63 := by omega
    exact Nat.lt_pow_of_log_lt (by decide) hL

/-- C4: `numberOfLeadingZeros64` gives 64 on 0, 63 on 1 and 0 on `2^63`, and on every `x`
with `0 < x < 2^64` it gives 63 minus the index of the highest set bit of `x`
(`63 - ⌊log₂ x⌋`). -/
theorem numberOfLeadingZeros64_exact :
    numberOfLeadingZeros64 0 = 64 ∧ numberOfLeadingZeros64 1 = 63 ∧
      numberOfLeadingZeros64 (2 ^ 63) = 0 ∧
      ∀ x : Nat, 0 < x → x < 2 ^ 64 →
        numberOfLeadingZeros64 x = 63 - (Nat.log 2 x : Int) ∧
          x.testBit (Nat.log 2 x) = true ∧ ∀ j, Nat.log 2 x < j → x.testBit j = false := by
  refine ⟨by decide, by decide, by decide, ?_⟩
  intro x hx hb
  refine ⟨numberOfLeadingZeros64_pos x hx hb, ?_, ?_⟩
  · have h1 : 2 ^ Nat.log 2 x ≤ x := Nat.pow_log_le_self 2 (by omega)
    have h2 : x < 2 ^ (Nat.log 2 x + 1) := Nat.lt_pow_succ_log_self (by decide) x
    rw [Nat.testBit_to_div_mod]
    have h3 : x / 2 ^ Nat.log 2 x = 1 := by
      apply Nat.div_eq_of_lt_le
      · simpa using h1
      · rw [Nat.pow_succ] at h2; omega
    rw [h3]; rfl
  · intro j hj
    have h2 : x < 2 ^ (Nat.log 2 x + 1) := Nat.lt_pow_succ_log_self (by decide) x
    exact testBit_high_false h2 hj

/-- C4, at `x = 12345`. -/
theorem numberOfLeadingZeros64_exact_witness :
    0 < 12345 ∧ 12345 < 2 ^ 64 ∧
      numberOfLeadingZeros64 12345 = 63 - (Nat.log 2 12345 : Int) :=
  ⟨by decide, by decide, (numberOfLeadingZeros64_exact.2.2.2 12345 (by decide) (by decide)).1⟩


/-! ## The hash-to-state loader -/

theorem getD_lt_of_isDigest {hash : List Nat} (h : IsDigest hash) (i : Nat) :
    hash.getD i 0 < 256 := by
  by_cases hi : i < hash.length
  · rw [List.getD_eq_getElem _ _ hi]
    exact h.2 _ (List.getElem_mem hi)
  · rw [List.getD_eq_default _ _ (by omega)]
    decide

theorem shift_or_byte (w byte : Nat) (hw : w < 2 ^ 56) (hb : byte < 256) :
    ((w <<< 8) % 2 ^ 64) ||| byte = w * 256 + byte := by
  have h1 : w <<< 8 < 2 ^ 64 := by
    rw [Nat.shiftLeft_eq]; omega
  have hb8 : byte < 2 ^ 8 := hb
  rw [Nat.mod_eq_of_lt h1, Nat.shiftLeft_eq, Nat.mul_comm w, ← Nat.mul_add_lt_is_or hb8]

theorem packLoop_spec (hash : List Nat) (h : IsDigest hash) (l : Nat) (hl : l < 4) :
    ∀ (count b w : Nat), b + count = 8 → w < 256 ^ b →
      packLoop hash l count b w =
        some (w * 256 ^ count +
          ∑ j in Finset.range count, hash.getD (8 * l + (b + j)) 0 * 256 ^ (count - 1 - j)) := by
  intro count
  induction count with
  | zero => intro b w _ _; simp [packLoop]
  | succ count ih =>
    intro b w hbc hw
    have hidx : l * 8 + b < hash.length := by rw [h.1]; omega
    have hget : hash[l * 8 + b]? = some (hash.getD (8 * l + b) 0) := by
      rw [List.getD_eq_getElem?_getD, Nat.mul_comm 8 l]
      rw [List.getElem?_eq_getElem hidx]; rfl
    have hbyte := getD_lt_of_isDigest h (8 * l + b)
    have hw56 : w < 2 ^ 56 := by
      have : (256 : Nat) ^ b ≤ 256 ^ 7 := Nat.pow_le_pow_right (by decide) (by omega)
      have e : (256 : Nat) ^ 7 = 2 ^ 56 := by norm_num
      omega
    simp only [packLoop, hget]
    rw [shift_or_byte w _ hw56 hbyte, ih (b + 1) _ (by omega)]
    · rw [Finset.sum_range_succ']
      have e1 : ∀ j, b + 1 + j = b + (j + 1) := by intro j; omega
      have e2 : ∀ j, count + 1 - 1 - (j + 1) = count - 1 - j := by intro j; omega
      have e3 : ∀ j, count - (j + 1) = count - 1 - j := by intro j; omega
      have e4 : ∑ x ∈ Finset.range count,
            hash.getD (8 * l + (b + 1 + x)) 0 * 256 ^ (count - 1 - x) =
          ∑ x ∈ Finset.range count,
            hash.getD (8 * l + (b + (x + 1))) 0 * 256 ^ (count + 1 - 1 - (x + 1)) := by
        apply Finset.sum_congr rfl
        intro x _
        rw [e1, e2]
      rw [e4]
      simp only [Nat.add_zero, Nat.add_sub_cancel, Nat.sub_zero, Option.some.injEq]
      ring
    · rw [Nat.pow_succ]; omega

theorem packWord_spec (hash : List Nat) (h : IsDigest hash) (l : Nat) (hl : l < 4) :
    packWord hash l = some (bigEndianWord hash l) := by
  unfold packWord bigEndianWord
  rw [packLoop_spec hash h l hl 8 0 0 (by rfl) (by decide)]
  simp

theorem loadLongHash_spec (hash : List Nat) (h : IsDigest hash) :
    loadLongHash hash =
      some { w0 := bigEndianWord hash 0, w1 := bigEndianWord hash 1,
             w2 := bigEndianWord hash 2, w3 := bigEndianWord hash 3 } := by
  unfold loadLongHash
  rw [packWord_spec hash h 0 (by decide), packWord_spec hash h 1 (by decide),
    packWord_spec hash h 2 (by decide), packWord_spec hash h 3 (by decide)]

theorem bigEndian_arith (a : Nat → Nat) (ha : ∀ j, a j < 256) :
    (∑ j in Finset.range 8, a j * 256 ^ (7 - j)) < 2 ^ 64 ∧
      ∀ b, b < 8 → a b = (∑ j in Finset.range 8, a j * 256 ^ (7 - j)) / 256 ^ (7 - b) % 256 := by
  have g0 := ha 0; have g1 := ha 1; have g2 := ha 2; have g3 := ha 3
  have g4 := ha 4; have g5 := ha 5; have g6 := ha 6; have g7 := ha 7
  simp only [Finset.sum_range_succ, Finset.sum_range_zero, Nat.zero_add]
  refine ⟨by norm_num; omega, ?_⟩
  intro b hb
  interval_cases b <;> norm_num <;> omega

/-- Byte `b` of a digest is recovered from the packed word it went into. -/
theorem byte_of_bigEndianWord (hash : List Nat) (h : IsDigest hash) (l b : Nat) (hb : b < 8) :
    hash.getD (8 * l + b) 0 = bigEndianWord hash l / 256 ^ (7 - b) % 256 :=
  (bigEndian_arith (fun j => hash.getD (8 * l + j) 0)
    (fun j => getD_lt_of_isDigest h (8 * l + j))).2 b hb

theorem bigEndianWord_lt (hash : List Nat) (h : IsDigest hash) (l : Nat) :
    bigEndianWord hash l < 2 ^ 64 :=
  (bigEndian_arith (fun j => hash.getD (8 * l + j) 0)
    (fun j => getD_lt_of_isDigest h (8 * l + j))).1

theorem test3Loop_eq_packLoop (hash : List Nat) (l : Nat) :
    ∀ count b w, Test.test3Loop hash l count b w = packLoop hash l count b w := by
  intro count
  induction count with
  | zero => intro b w; rfl
  | succ count ih =>
    intro b w
    simp only [Test.test3Loop, packLoop]
    cases hash[l * 8 + b]? with
    | none => rfl
    | some byte => exact ih _ _

theorem test3_eq_loadLongHash (hash : List Nat) : Test.test3 hash = loadLongHash hash := by
  simp only [Test.test3, loadLongHash, packWord, test3Loop_eq_packLoop]

/-- The packed words of a digest determine it. -/
theorem eq_of_bigEndianWord_eq (hash hash' : List Nat) (h : IsDigest hash)
    (h' : IsDigest hash') (e : ∀ l, l < 4 → bigEndianWord hash l = bigEndianWord hash' l) :
    hash = hash' := by
  apply List.ext_getElem (by rw [h.1, h'.1])
  intro i hi hi'
  have hi32 : i < 32 := by rw [← h.1]; exact hi
  have e1 := byte_of_bigEndianWord hash h (i / 8) (i % 8) (Nat.mod_lt _ (by decide))
  have e2 := byte_of_bigEndianWord hash' h' (i / 8) (i % 8) (Nat.mod_lt _ (by decide))
  rw [Nat.div_add_mod, List.getD_eq_getElem _ _ hi] at e1
  rw [Nat.div_add_mod, List.getD_eq_getElem _ _ hi'] at e2
  rw [e1, e2, e (i / 8) (by omega)]

/-- C5: on every 32-byte digest the loader of `compute2`, and `test3`, give the four words
`longHash[l] = Σ_{b < 8} hash[8 l + b] * 256 ^ (7 - b)`; two 32-byte digests with the same
four words are equal. -/
theorem loader_bigEndian (hash : List Nat) (h : IsDigest hash) :
    loadLongHash hash =
        some { w0 := ∑ b in Finset.range 8, hash.getD (8 * 0 + b) 0 * 256 ^ (7 - b)
               w1 := ∑ b in Finset.range 8, hash.getD (8 * 1 + b) 0 * 256 ^ (7 - b)
               w2 := ∑ b in Finset.range 8, hash.getD (8 * 2 + b) 0 * 256 ^ (7 - b)
               w3 := ∑ b in Finset.range 8, hash.getD (8 * 3 + b) 0 * 256 ^ (7 - b) } ∧
      Test.test3 hash = loadLongHash hash ∧
      ∀ hash', IsDigest hash' → loadLongHash hash' = loadLongHash hash → hash' = hash := by
  refine ⟨loadLongHash_spec hash h, test3_eq_loadLongHash hash, ?_⟩
  intro hash' h' e
  rw [loadLongHash_spec hash h, loadLongHash_spec hash' h'] at e
  simp only [Option.some.injEq, Words.mk.injEq] at e
  apply eq_of_bigEndianWord_eq hash' hash h' h
  intro l hl
  interval_cases l
  · exact e.1
  · exact e.2.1
  · exact e.2.2.1
  · exact e.2.2.2

/-- C5, at the digest `0, 1, …, 31`. -/
theorem loader_bigEndian_witness :
    IsDigest (List.range 32) ∧
      loadLongHash (List.range 32) =
        some { w0 := 283686952306183, w1 := 579005069656919567,
               w2 := 1157726452361532951, w3 := 1736447835066146335 } ∧
      loadLongHash (List.range 32) =
        some { w0 := ∑ b in Finset.range 8, (List.range 32).getD (8 * 0 + b) 0 * 256 ^ (7 - b)
               w1 := ∑ b in Finset.range 8, (List.range 32).getD (8 * 1 + b) 0 * 256 ^ (7 - b)
               w2 := ∑ b in Finset.range 8, (List.range 32).getD (8 * 2 + b) 0 * 256 ^ (7 - b)
               w3 := ∑ b in Finset.range 8, (List.range 32).getD (8 * 3 + b) 0 * 256 ^ (7 - b) } :=
  ⟨by decide, by decide, (loader_bigEndian (List.range 32) (by decide)).1⟩

/-! ## The buffer fill -/

theorem stateAfter_add (s : Words) (a b : Nat) :
    stateAfter s (a + b) = stateAfter (stateAfter s a) b := by
  induction a generalizing s with
  | zero => simp [stateAfter]
  | succ a ih =>
    rw [Nat.add_right_comm]
    exact ih (xoshiro256p s).2

theorem outputAt_add (s : Words) (a b : Nat) :
    outputAt s (a + b) = outputAt (stateAfter s a) b := by
  unfold outputAt
  rw [stateAfter_add]

theorem outputAt_lt (s : Words) (i : Nat) : outputAt s i < 2 ^ 64 :=
  xoshiro256p_fst_lt _

/-- The fill loop started at index `i` with `count` iterations left: it ends, leaves the
state advanced by `count` calls, writes the `count` outputs in call order from index `i` on,
and leaves every other cell as it was. -/
theorem fillLoop_spec :
    ∀ (count i : Nat) (s : Words) (buf : List Nat), i + count ≤ buf.length →
      ∃ buf', fillLoop count i s buf = some (stateAfter s count, buf') ∧
        buf'.length = buf.length ∧
        (∀ j, j < count → buf'[i + j]? = some (outputAt s j)) ∧
        (∀ j, j < i ∨ i + count ≤ j → buf'[j]? = buf[j]?) := by
  intro count
  induction count with
  | zero =>
    intro i s buf _
    exact ⟨buf, rfl, rfl, fun j hj => absurd hj (Nat.not_lt_zero j), fun j _ => rfl⟩
  | succ count ih =>
    intro i s buf h
    have hi : i < buf.length := by omega
    obtain ⟨buf', e, hlen, hin, hout⟩ :=
      ih (i + 1) (xoshiro256p s).2 (buf.set i (xoshiro256p s).1)
        (by rw [List.length_set]; omega)
    refine ⟨buf', ?_, ?_, ?_, ?_⟩
    · simp only [fillLoop, if_pos hi]
      exact e
    · rw [hlen, List.length_set]
    · intro j hj
      cases j with
      | zero =>
        rw [Nat.add_zero, hout i (Or.inl (Nat.lt_succ_self i)), List.getElem?_set_self hi]
        rfl
      | succ j =>
        have := hin j (by omega)
        rw [Nat.add_right_comm] at this
        rw [← Nat.add_assoc, this]
        rfl
    · intro j hj
      rw [hout j (by omega), List.getElem?_set_ne (by omega)]

theorem fillWorkBufferLoop_eq_fillLoop :
    ∀ (count i : Nat) (s : Words) (buf : List Nat),
      Test.fillWorkBufferLoop count i s buf = fillLoop count i s buf := by
  intro count
  induction count with
  | zero => intro i s buf; rfl
  | succ count ih =>
    intro i s buf
    simp only [Test.fillWorkBufferLoop, fillLoop]
    split
    · exact ih _ _ _
    · rfl

/-- C6: for every generator state `S`, every length `n` and every buffer of at least `n`
words, the fill loop of `compute2` (and `fillWorkBuffer` of `test.c`) ends with
`buffer[i]` equal to the output of call number `i + 1` among consecutive `xoshiro256p` calls
started from `S`, for every `i < n`, and with the state equal to `S` advanced by `n` calls. -/
theorem fill_exact (S : Words) (n : Nat) (workBuffer : List Nat)
    (h : n ≤ workBuffer.length) :
    ∃ filled, fillLoop n 0 S workBuffer = some (stateAfter S n, filled) ∧
      Test.fillWorkBuffer workBuffer (n : Int) S = fillLoop (n % 2 ^ 32) 0 S workBuffer ∧
      filled.length = workBuffer.length ∧
      (∀ i, i < n → filled[i]? = some (outputAt S i)) ∧
      (∀ i, n ≤ i → filled[i]? = workBuffer[i]?) ∧
      (3 ≤ n → filled.take 3 =
        [(xoshiro256p S).1, (xoshiro256p (xoshiro256p S).2).1,
          (xoshiro256p (xoshiro256p (xoshiro256p S).2).2).1]) := by
  obtain ⟨filled, e, hlen, hin, hout⟩ := fillLoop_spec n 0 S workBuffer (by omega)
  refine ⟨filled, e, ?_, hlen, ?_, ?_, ?_⟩
  · unfold Test.fillWorkBuffer toUInt32
    rw [fillWorkBufferLoop_eq_fillLoop]
    congr 1
  · intro i hi
    have := hin i hi
    rwa [Nat.zero_add] at this
  · intro i hi
    exact hout i (Or.inr (by omega))
  · intro h3
    have h0 := hin 0 (by omega)
    have h1 := hin 1 (by omega)
    have h2 := hin 2 (by omega)
    simp only [Nat.zero_add] at h0 h1 h2
    apply List.ext_getElem?
    intro i
    rcases Nat.lt_or_ge i 3 with hi | hi
    · rw [List.getElem?_take_of_lt hi]
      interval_cases i
      · rw [h0]; rfl
      · rw [h1]; rfl
      · rw [h2]; rfl
    · rw [List.getElem?_eq_none (by rw [List.length_take]; omega)]
      rw [List.getElem?_eq_none (by simpa using hi)]

/-- C6, at the state `(1, 2, 3, 4)` and a buffer of four words. -/
theorem fill_exact_witness :
    3 ≤ [0, 0, 0, 0].length ∧
      fillLoop 3 0 (Words.mk 1 2 3 4) [0, 0, 0, 0] =
        some (Words.mk 211106635448322 211106232532999 211140593188866 9223547958715220736,
          [5, 211106232532999, 211106635186183, 0]) ∧
      ∃ filled, fillLoop 3 0 (Words.mk 1 2 3 4) [0, 0, 0, 0] =
          some (stateAfter (Words.mk 1 2 3 4) 3, filled) ∧
        Test.fillWorkBuffer [0, 0, 0, 0] ((3 : Nat) : Int) (Words.mk 1 2 3 4) =
          fillLoop (3 % 2 ^ 32) 0 (Words.mk 1 2 3 4) [0, 0, 0, 0] ∧
        filled.length = [0, 0, 0, 0].length ∧
        (∀ i, i < 3 → filled[i]? = some (outputAt (Words.mk 1 2 3 4) i)) ∧
        (∀ i, 3 ≤ i → filled[i]? = [0, 0, 0, 0][i]?) ∧
        (3 ≤ 3 → filled.take 3 =
          [(xoshiro256p (Words.mk 1 2 3 4)).1,
            (xoshiro256p (xoshiro256p (Words.mk 1 2 3 4)).2).1,
            (xoshiro256p (xoshiro256p (xoshiro256p (Words.mk 1 2 3 4)).2).2).1]) :=
  ⟨by decide, by decide, fill_exact (Words.mk 1 2 3 4) 3 [0, 0, 0, 0] (by decide)⟩

/-! ## The bounce loop -/

theorem xorFold_succ_front (f : Nat → Nat) (k acc : Nat) :
    xorFold f (k + 1) acc = xorFold (fun j => f (j + 1)) k (acc ^^^ f 0) := by
  induction k with
  | zero => rfl
  | succ k ih =>
    show xorFold f (k + 1) acc ^^^ f (k + 1) = _
    rw [ih]
    rfl

theorem xorFold_congr (f g : Nat → Nat) (k acc : Nat) (h : ∀ j, j < k → f j = g j) :
    xorFold f k acc = xorFold g k acc := by
  induction k with
  | zero => rfl
  | succ k ih =>
    simp only [xorFold]
    rw [ih (fun j hj => h j (Nat.lt_succ_of_lt hj)), h k (Nat.lt_succ_self k)]

theorem xorFold_lt (f : Nat → Nat) (k acc : Nat) (hf : ∀ j, f j < 2 ^ 64) (ha : acc < 2 ^ 64) :
    xorFold f k acc < 2 ^ 64 := by
  induction k with
  | zero => exact ha
  | succ k ih => exact Nat.xor_lt_two_pow ih (hf k)

/-- The index computed in the bounce loop, `(uint32_t) (r & INTEGER_MAX_VALUE) % n`, is
`(r mod 2^31) mod n`. -/
theorem bounce_index (r n : Nat) :
    ((r &&& INTEGER_MAX_VALUE) % 2 ^ 32) % n = (r % 2 ^ 31) % n := by
  have e : INTEGER_MAX_VALUE = 2 ^ 31 - 1 := by decide
  rw [e, Nat.and_pow_two_sub_one_eq_mod]
  have h : r % 2 ^ 31 < 2 ^ 32 := by omega
  rw [Nat.mod_eq_of_lt h]

/-- The bounce loop with `count` iterations left: it ends, leaves the state advanced by
`count` calls, and has folded into `result` the words at the indices given by the `count`
outputs in call order. -/
theorem bounceLoop_spec (buf : List Nat) (n : Nat) (hn : 0 < n) (hlen : n ≤ buf.length) :
    ∀ (count : Nat) (s : Words) (result : Nat),
      bounceLoop buf n count s result =
        some (xorFold (fun j => buf.getD ((outputAt s j % 2 ^ 31) % n) 0) count result,
          stateAfter s count) := by
  intro count
  induction count with
  | zero => intro s result; rfl
  | succ count ih =>
    intro s result
    have hn0 : ¬ n = 0 := by omega
    have hidx : ((xoshiro256p s).1 % 2 ^ 31) % n < buf.length :=
      lt_of_lt_of_le (Nat.mod_lt _ hn) hlen
    simp only [bounceLoop, if_neg hn0, bounce_index, List.getElem?_eq_getElem hidx]
    rw [ih, xorFold_succ_front]
    simp only [outputAt, stateAfter, List.getD_eq_getElem _ _ hidx]

/-- The attempt after the state is derived, on a buffer of at least `n ≥ 1` words: it ends
with the state advanced by `n + 1024` calls and with `result` equal to `attemptResult`, a
value that depends on `n` and the derived state alone. -/
theorem runAttempt_spec (n : Nat) (S : Words) (buf : List Nat) (hn : 1 ≤ n)
    (hlen : n ≤ buf.length) :
    ∃ filled, runAttempt n S buf = some (stateAfter S (n + 1024), filled, attemptResult n S) ∧
      filled.length = buf.length ∧
      (∀ i, i < n → filled[i]? = some (outputAt S i)) ∧
      (∀ i, n ≤ i → filled[i]? = buf[i]?) := by
  obtain ⟨filled, e, hl, hin, hout⟩ := fillLoop_spec n 0 S buf (by omega)
  simp only [Nat.zero_add] at hin
  refine ⟨filled, ?_, hl, hin, fun i hi => hout i (Or.inr (by omega))⟩
  have h0 : filled[0]? = some (outputAt S 0) := hin 0 (by omega)
  unfold runAttempt
  simp only [e, h0]
  rw [bounceLoop_spec filled n (by omega) (by omega)]
  simp only [stateAfter_add]
  have hf : xorFold (fun j => filled.getD ((outputAt (stateAfter S n) j % 2 ^ 31) % n) 0) 1024
      (outputAt S 0) = attemptResult n S := by
    unfold attemptResult
    apply xorFold_congr
    intro j _
    have hi : (outputAt (stateAfter S n) j % 2 ^ 31) % n < n := Nat.mod_lt _ (by omega)
    rw [List.getD_eq_getElem?_getD, hin _ hi, outputAt_add]
    rfl
  rw [hf]

/-- C7: on every buffer of at least `n ≥ 1` words and from every state `S`, the attempt ends
with `result = filled[0] ^ XOR_{j < 1024} filled[(r j mod 2^31) mod n]`, where `filled` is the
buffer left by the fill and `r 0, …, r 1023` are the 1024 consecutive `xoshiro256p` outputs
that continue from the state left by the fill, which are outputs number `n + 1, …, n + 1024`
counted from `S`. -/
theorem bounce_accumulation (n : Nat) (S : Words) (workBuffer : List Nat) (hn : 1 ≤ n)
    (hlen : n ≤ workBuffer.length) :
    ∃ filled result,
      fillLoop n 0 S workBuffer = some (stateAfter S n, filled) ∧
      runAttempt n S workBuffer = some (stateAfter S (n + 1024), filled, result) ∧
      bounceLoop filled n 1024 (stateAfter S n) (filled.getD 0 0) =
        some (result, stateAfter S (n + 1024)) ∧
      result =
        xorFold (fun j => filled.getD ((outputAt (stateAfter S n) j % 2 ^ 31) % n) 0) 1024
          (filled.getD 0 0) ∧
      (∀ j, outputAt (stateAfter S n) j = outputAt S (n + j)) ∧
      (∀ i, i < n → filled.getD i 0 = outputAt S i) := by
  obtain ⟨filled, e, hl, hin, _⟩ := fillLoop_spec n 0 S workBuffer (by omega)
  simp only [Nat.zero_add] at hin
  obtain ⟨filled', e', _⟩ := runAttempt_spec n S workBuffer hn hlen
  have hsame : filled' = filled := by
    have h1 := e'
    unfold runAttempt at h1
    simp only [e] at h1
    split at h1
    · exact absurd h1 (by simp)
    · split at h1
      · exact absurd h1 (by simp)
      · simp only [Option.some.injEq, Prod.mk.injEq] at h1
        exact h1.2.1.symm
  subst hsame
  have hget : ∀ i, i < n → filled'.getD i 0 = outputAt S i := by
    intro i hi
    rw [List.getD_eq_getElem?_getD, hin i hi]
    rfl
  have hres : xorFold (fun j => filled'.getD ((outputAt (stateAfter S n) j % 2 ^ 31) % n) 0)
      1024 (filled'.getD 0 0) = attemptResult n S := by
    unfold attemptResult
    rw [hget 0 (by omega)]
    apply xorFold_congr
    intro j _
    rw [hget _ (Nat.mod_lt _ (by omega)), outputAt_add]
  have hb := bounceLoop_spec filled' n (by omega) (by omega) 1024 (stateAfter S n)
    (filled'.getD 0 0)
  rw [← stateAfter_add, hres] at hb
  exact ⟨filled', attemptResult n S, e, e', hb, hres.symm,
    fun j => (outputAt_add S n j).symm, hget⟩

set_option maxRecDepth 100000 in
/-- C7, at the state `(1, 2, 3, 4)` and a buffer of three words. -/
theorem bounce_accumulation_witness :
    1 ≤ 3 ∧ 3 ≤ [0, 0, 0].length ∧
      (runAttempt 3 (Words.mk 1 2 3 4) [0, 0, 0]).map (fun p => p.2) =
        some ([5, 211106232532999, 211106635186183], 211106635186183) ∧
      ∃ filled result,
        fillLoop 3 0 (Words.mk 1 2 3 4) [0, 0, 0] =
          some (stateAfter (Words.mk 1 2 3 4) 3, filled) ∧
        runAttempt 3 (Words.mk 1 2 3 4) [0, 0, 0] =
          some (stateAfter (Words.mk 1 2 3 4) (3 + 1024), filled, result) ∧
        bounceLoop filled 3 1024 (stateAfter (Words.mk 1 2 3 4) 3) (filled.getD 0 0) =
          some (result, stateAfter (Words.mk 1 2 3 4) (3 + 1024)) ∧
        result =
          xorFold
            (fun j => filled.getD ((outputAt (stateAfter (Words.mk 1 2 3 4) 3) j % 2 ^ 31) % 3) 0)
            1024 (filled.getD 0 0) ∧
        (∀ j, outputAt (stateAfter (Words.mk 1 2 3 4) 3) j =
          outputAt (Words.mk 1 2 3 4) (3 + j)) ∧
        (∀ i, i < 3 → filled.getD i 0 = outputAt (Words.mk 1 2 3 4) i) :=
  ⟨by decide, by decide, by decide,
    bounce_accumulation 3 (Words.mk 1 2 3 4) [0, 0, 0] (by decide) (by decide)⟩

/-! ## The search loop -/

theorem attemptResult_lt (n : Nat) (S : Words) : attemptResult n S < 2 ^ 64 :=
  xorFold_lt _ _ _ (fun _ => outputAt_lt _ _) (outputAt_lt _ _)

/-- One pass through the loop body on a buffer of at least `n ≥ 1` words: it ends, the nonce
is incremented modulo `2^32`, the seed is multiplied modulo `2^64`, and `result` is the
accumulated result of the attempt from the state derived with the new seed. -/
theorem loopBody_spec (longHash : Words) (n : Nat) (v : Locals) (hn : 1 ≤ n)
    (hlen : n ≤ v.workBuffer.length) :
    ∃ v1, loopBody longHash n v = some v1 ∧
      v1.nonce = (v.nonce + 1) % 2 ^ 32 ∧
      v1.seed = (v.seed * seedMultiplier) % 2 ^ 64 ∧
      v1.result = attemptResult n (deriveState longHash v1.seed) ∧
      v1.workBuffer.length = v.workBuffer.length ∧
      runAttempt n (deriveState longHash v1.seed) v.workBuffer =
        some (v1.state, v1.workBuffer, v1.result) := by
  obtain ⟨filled, e, hl, _, _⟩ :=
    runAttempt_spec n (deriveState longHash ((v.seed * seedMultiplier) % 2 ^ 64))
      v.workBuffer hn hlen
  generalize stateAfter (deriveState longHash ((v.seed * seedMultiplier) % 2 ^ 64))
    (n + 1024) = st at e
  refine ⟨{ nonce := (v.nonce + 1) % 2 ^ 32, seed := (v.seed * seedMultiplier) % 2 ^ 64,
             state := st, workBuffer := filled,
             result := attemptResult n
               (deriveState longHash ((v.seed * seedMultiplier) % 2 ^ 64)) }, ?_, ?_⟩
  · unfold loopBody
    simp only [e]
  · exact ⟨rfl, rfl, rfl, hl, e⟩

theorem iterBody_succ_last (longHash : Words) (n : Nat) :
    ∀ (k : Nat) (v vk : Locals), iterBody longHash n k v = some vk →
      iterBody longHash n (k + 1) v = loopBody longHash n vk := by
  intro k
  induction k with
  | zero =>
    intro v vk h
    simp only [iterBody, Option.some.injEq] at h
    subst h
    simp only [iterBody]
    cases loopBody longHash n v <;> rfl
  | succ k ih =>
    intro v vk h
    simp only [iterBody] at h
    rw [iterBody]
    cases hb : loopBody longHash n v with
    | none => rw [hb] at h; exact absurd h (by simp)
    | some v1 =>
      rw [hb] at h
      exact ih v1 vk h

/-- The locals after `k` passes through the loop body, on a buffer of at least `n ≥ 1` words:
they exist, the seed has been multiplied `k` times, the nonce incremented `k` times. -/
theorem iterBody_spec (longHash : Words) (n : Nat) (hn : 1 ≤ n) :
    ∀ (k : Nat) (v : Locals), n ≤ v.workBuffer.length →
      ∃ vk, iterBody longHash n k v = some vk ∧
        vk.seed % 2 ^ 64 = (v.seed * seedMultiplier ^ k) % 2 ^ 64 ∧
        vk.nonce % 2 ^ 32 = (v.nonce + k) % 2 ^ 32 ∧
        vk.workBuffer.length = v.workBuffer.length ∧
        (0 < k → vk.seed < 2 ^ 64 ∧ vk.nonce < 2 ^ 32 ∧
          vk.result = attemptResult n (deriveState longHash vk.seed)) := by
  intro k
  induction k with
  | zero =>
    intro v _
    exact ⟨v, rfl, by simp, by simp, rfl, fun h => absurd h (Nat.lt_irrefl 0)⟩
  | succ k ih =>
    intro v hlen
    obtain ⟨vk, e, hs, hc, hl, _⟩ := ih v hlen
    obtain ⟨v1, e1, h1, h2, h3, h4, _⟩ := loopBody_spec longHash n vk hn (by omega)
    refine ⟨v1, ?_, ?_, ?_, ?_, ?_⟩
    · rw [iterBody_succ_last longHash n k v vk e, e1]
    · have ep : seedMultiplier ^ (k + 1) = seedMultiplier ^ k * seedMultiplier :=
        Nat.pow_succ _ _
      rw [h2, Nat.mod_mod, ep, ← Nat.mul_assoc, Nat.mul_mod, hs, Nat.mul_mod_mod,
        Nat.mod_mul_mod]
    · rw [h1]; omega
    · omega
    · intro _
      refine ⟨?_, ?_, h3⟩
      · rw [h2]; exact Nat.mod_lt _ (by decide)
      · rw [h1]; exact Nat.mod_lt _ (by decide)

/-- The loop of `compute2` unrolled: it returns the locals `v'` within `fuel` passes exactly
when some pass number `m + 1 ≤ fuel` gives `v'`, `v'` passes the `while` exit test, and every
earlier pass fails it. -/
theorem compute2Loop_returned_iff (longHash : Words) (n : Nat) (difficulty : Int) :
    ∀ (fuel : Nat) (v v' : Locals),
      compute2Loop longHash n difficulty fuel v = Outcome.returned v' ↔
        ∃ m, m < fuel ∧ iterBody longHash n (m + 1) v = some v' ∧
          difficulty ≤ numberOfLeadingZeros64 v'.result ∧
          ∀ u, u < m → ∃ w, iterBody longHash n (u + 1) v = some w ∧
            numberOfLeadingZeros64 w.result < difficulty := by
  intro fuel
  induction fuel with
  | zero =>
    intro v v'
    constructor
    · intro h; simp [compute2Loop] at h
    · rintro ⟨m, hm, _⟩; exact absurd hm (Nat.not_lt_zero m)
  | succ fuel ih =>
    intro v v'
    rw [compute2Loop]
    cases hb : loopBody longHash n v with
    | none =>
      constructor
      · intro h; simp at h
      · rintro ⟨m, _, h, _⟩
        simp [iterBody, hb] at h
    | some v1 =>
      have hone : iterBody longHash n 1 v = some v1 := by simp [iterBody, hb]
      have hstep : ∀ k, iterBody longHash n (k + 1) v = iterBody longHash n k v1 := by
        intro k; simp [iterBody, hb]
      simp only
      by_cases hd : numberOfLeadingZeros64 v1.result < difficulty
      · rw [if_pos hd, ih v1 v']
        constructor
        · rintro ⟨m, hm, e, hge, hfail⟩
          refine ⟨m + 1, by omega, by rw [hstep]; exact e, hge, ?_⟩
          intro u hu
          cases u with
          | zero => exact ⟨v1, hone, hd⟩
          | succ u =>
            obtain ⟨w, hw, hlt⟩ := hfail u (by omega)
            exact ⟨w, by rw [hstep]; exact hw, hlt⟩
        · rintro ⟨m, hm, e, hge, hfail⟩
          cases m with
          | zero =>
            rw [hone] at e
            simp only [Option.some.injEq] at e
            subst e
            omega
          | succ m =>
            refine ⟨m, by omega, by rw [← hstep]; exact e, hge, ?_⟩
            intro u hu
            obtain ⟨w, hw, hlt⟩ := hfail (u + 1) (by omega)
            exact ⟨w, by rw [← hstep]; exact hw, hlt⟩
      · rw [if_neg hd]
        constructor
        · intro h
          simp only [Outcome.returned.injEq] at h
          subst h
          exact ⟨0, by omega, hone, by omega, fun u hu => absurd hu (Nat.not_lt_zero u)⟩
        · rintro ⟨m, hm, e, hge, hfail⟩
          cases m with
          | zero =>
            rw [hone] at e
            simp only [Option.some.injEq] at e
            rw [e]
          | succ m =>
            obtain ⟨w, hw, hlt⟩ := hfail 0 (by omega)
            rw [hone] at hw
            simp only [Option.some.injEq] at hw
            subst hw
            exact absurd hlt hd

theorem seedAt_eq (k : Nat) : seedAt k = (seedInit * seedMultiplier ^ (k + 1)) % 2 ^ 64 := rfl

/-- The locals of `compute2` after attempt number `k` from the entry to the loop, on a buffer
of at least `n ≥ 1` words: the nonce is `k mod 2^32`, the seed is `seedAt k`, and `result` is
the accumulated result of the attempt from the state derived with that seed. -/
theorem iterBody_init (longHash : Words) (n : Nat) (hn : 1 ≤ n) (buf : List Nat)
    (hlen : n ≤ buf.length) (k : Nat) :
    ∃ vk, iterBody longHash n (k + 1) (initLocals buf) = some vk ∧
      vk.nonce = k % 2 ^ 32 ∧ vk.seed = seedAt k ∧
      vk.result = attemptResult n (deriveState longHash (seedAt k)) ∧
      vk.workBuffer.length = buf.length := by
  obtain ⟨vk, e, hs, hc, hl, hpos⟩ := iterBody_spec longHash n hn (k + 1) (initLocals buf) hlen
  obtain ⟨b1, b2, hr⟩ := hpos (Nat.succ_pos k)
  have es : vk.seed = seedAt k := by
    rw [seedAt_eq, ← Nat.mod_eq_of_lt b1]; exact hs
  have ec : vk.nonce = k % 2 ^ 32 := by
    rw [← Nat.mod_eq_of_lt b2, hc]
    simp only [initLocals]
    omega
  exact ⟨vk, e, ec, es, by rw [hr, es], hl⟩

theorem compute2_returned_iff (fuel : Nat) (hash buf : List Nat) (len : Nat) (d : Int)
    (v : Nat) (lh : Words) (hl : loadLongHash hash = some lh) :
    compute2 fuel hash buf len d = Outcome.returned v ↔
      ∃ loc, compute2Loop lh (len / 8) d fuel (initLocals buf) = Outcome.returned loc ∧
        loc.nonce = v := by
  unfold compute2 compute2Run
  simp only [hl]
  cases compute2Loop lh (len / 8) d fuel (initLocals buf) with
  | returned loc => simp
  | undefined => simp
  | outOfFuel => simp

/-- The search of `compute2` on a buffer of at least `n ≥ 1` words, in terms of the attempts:
it returns the locals `loc` within `fuel` attempts exactly when `loc` are the locals after
attempt number `m < fuel`, whose result passes the difficulty test while the results of
attempts `0, …, m - 1` fail it. -/
theorem compute2Loop_search (lh : Words) (n : Nat) (d : Int) (buf : List Nat) (hn : 1 ≤ n)
    (hlen : n ≤ buf.length) (fuel : Nat) (loc : Locals) :
    compute2Loop lh n d fuel (initLocals buf) = Outcome.returned loc ↔
      ∃ m, m < fuel ∧ iterBody lh n (m + 1) (initLocals buf) = some loc ∧
        d ≤ numberOfLeadingZeros64 (attemptResult n (deriveState lh (seedAt m))) ∧
        ∀ u, u < m →
          numberOfLeadingZeros64 (attemptResult n (deriveState lh (seedAt u))) < d := by
  rw [compute2Loop_returned_iff]
  constructor
  · rintro ⟨m, hm, e, hge, hfail⟩
    obtain ⟨vm, em, _, _, hr, _⟩ := iterBody_init lh n hn buf hlen m
    rw [e] at em
    simp only [Option.some.injEq] at em
    subst em
    refine ⟨m, hm, e, by rw [← hr]; exact hge, ?_⟩
    intro u hu
    obtain ⟨w, hw, hlt⟩ := hfail u hu
    obtain ⟨vu, eu, _, _, hru, _⟩ := iterBody_init lh n hn buf hlen u
    rw [hw] at eu
    simp only [Option.some.injEq] at eu
    subst eu
    rw [← hru]; exact hlt
  · rintro ⟨m, hm, e, hge, hfail⟩
    obtain ⟨vm, em, _, _, hr, _⟩ := iterBody_init lh n hn buf hlen m
    rw [e] at em
    simp only [Option.some.injEq] at em
    subst em
    refine ⟨m, hm, e, by rw [hr]; exact hge, ?_⟩
    intro u hu
    obtain ⟨vu, eu, _, _, hru, _⟩ := iterBody_init lh n hn buf hlen u
    exact ⟨vu, eu, by rw [hru]; exact hfail u hu⟩

/-- The result of an attempt as the code computes it, on any buffer of at least `n ≥ 1`
words, is `attemptResult`. -/
theorem runAttempt_result (n : Nat) (S : Words) (hn : 1 ≤ n) (b : List Nat)
    (hb : n ≤ b.length) :
    ∃ st b', runAttempt n S b = some (st, b', attemptResult n S) := by
  obtain ⟨filled, e, _⟩ := runAttempt_spec n S b hn hb
  exact ⟨_, filled, e⟩

/-- C1: for every 32-byte digest, every buffer of at least `n = workBufferLength / 8 ≥ 1`
words and every difficulty, if `compute2` returns the nonce `v` within `2^32` attempts, then
for every nonce `u < v` the attempt run from the state derived from the digest and the seed of
attempt `u` gives a result with fewer than `difficulty` leading zero bits, and the attempt of
nonce `v` gives a result with at least `difficulty` leading zero bits: `v` is the smallest
nonce that meets the difficulty. -/
theorem compute2_minimal (hash workBuffer : List Nat) (workBufferLength : Nat)
    (difficulty : Int) (fuel v : Nat) (hd : IsDigest hash) (hn : 1 ≤ workBufferLength / 8)
    (hlen : workBufferLength / 8 ≤ workBuffer.length) (hfuel : fuel ≤ 2 ^ 32)
    (hret : compute2 fuel hash workBuffer workBufferLength difficulty = Outcome.returned v) :
    ∃ longHash, loadLongHash hash = some longHash ∧
      (∀ u, u < v → ∀ b : List Nat, workBufferLength / 8 ≤ b.length →
        ∃ st b' r, runAttempt (workBufferLength / 8) (deriveState longHash (seedAt u)) b =
            some (st, b', r) ∧
          numberOfLeadingZeros64 r < difficulty) ∧
      (∀ b : List Nat, workBufferLength / 8 ≤ b.length →
        ∃ st b' r, runAttempt (workBufferLength / 8) (deriveState longHash (seedAt v)) b =
            some (st, b', r) ∧
          difficulty ≤ numberOfLeadingZeros64 r) := by
  have hl := loadLongHash_spec hash hd
  refine ⟨_, hl, ?_⟩
  obtain ⟨loc, hloop, hnonce⟩ := (compute2_returned_iff fuel hash workBuffer workBufferLength
    difficulty v _ hl).1 hret
  obtain ⟨m, hm, e, hge, hfail⟩ := (compute2Loop_search _ _ difficulty workBuffer hn hlen fuel
    loc).1 hloop
  obtain ⟨vm, em, hc, _⟩ := iterBody_init _ (workBufferLength / 8) hn workBuffer hlen m
  rw [e] at em
  simp only [Option.some.injEq] at em
  subst em
  have hv : v = m := by
    rw [← hnonce, hc]
    exact Nat.mod_eq_of_lt (by omega)
  subst hv
  constructor
  · intro u hu b hb
    obtain ⟨st, b', e'⟩ := runAttempt_result (workBufferLength / 8)
      (deriveState _ (seedAt u)) hn b hb
    exact ⟨st, b', _, e', hfail u hu⟩
  · intro b hb
    obtain ⟨st, b', e'⟩ := runAttempt_result (workBufferLength / 8)
      (deriveState _ (seedAt v)) hn b hb
    exact ⟨st, b', _, e', hge⟩

set_option maxRecDepth 100000 in
/-- C1, at the digest `0, 1, …, 31`, a buffer of one word and difficulty 2, where the search
returns nonce 4. -/
theorem compute2_minimal_witness :
    IsDigest (List.range 32) ∧ 1 ≤ 8 / 8 ∧ 8 / 8 ≤ [0].length ∧ 10 ≤ 2 ^ 32 ∧
      compute2 10 (List.range 32) [0] 8 2 = Outcome.returned 4 ∧
      ∃ longHash, loadLongHash (List.range 32) = some longHash ∧
        (∀ u, u < 4 → ∀ b : List Nat, 8 / 8 ≤ b.length →
          ∃ st b' r, runAttempt (8 / 8) (deriveState longHash (seedAt u)) b =
              some (st, b', r) ∧
            numberOfLeadingZeros64 r < 2) ∧
        (∀ b : List Nat, 8 / 8 ≤ b.length →
          ∃ st b' r, runAttempt (8 / 8) (deriveState longHash (seedAt 4)) b =
              some (st, b', r) ∧
            (2 : Int) ≤ numberOfLeadingZeros64 r) :=
  ⟨by decide, by decide, by decide, by decide, by decide,
    compute2_minimal (List.range 32) [0] 8 2 10 4 (by decide) (by decide) (by decide)
      (by decide) (by decide)⟩

/-- C2: for every 32-byte digest, every buffer of at least `n = workBufferLength / 8 ≥ 1`
words and every difficulty, whenever `compute2` returns a nonce `v`, the 64-bit `result` held
when the loop exits has at least `difficulty` leading zero bits (so its top bit is clear when
`difficulty ≥ 1`), and it is the result of the attempt number `m` that produced `v`
(`v = m mod 2^32`). -/
theorem compute2_sound (hash workBuffer : List Nat) (workBufferLength : Nat)
    (difficulty : Int) (fuel v : Nat) (hd : IsDigest hash) (hn : 1 ≤ workBufferLength / 8)
    (hlen : workBufferLength / 8 ≤ workBuffer.length)
    (hret : compute2 fuel hash workBuffer workBufferLength difficulty = Outcome.returned v) :
    ∃ loc, compute2Run fuel hash workBuffer workBufferLength difficulty =
        Outcome.returned loc ∧
      loc.nonce = v ∧
      difficulty ≤ numberOfLeadingZeros64 loc.result ∧
      loc.result < 2 ^ 64 ∧
      (1 ≤ difficulty → loc.result < 2 ^ 63 ∧ loc.result.testBit 63 = false) ∧
      ∃ longHash m, loadLongHash hash = some longHash ∧ m < fuel ∧ v = m % 2 ^ 32 ∧
        ∀ b : List Nat, workBufferLength / 8 ≤ b.length →
          ∃ st b', runAttempt (workBufferLength / 8) (deriveState longHash (seedAt m)) b =
            some (st, b', loc.result) := by
  have hl := loadLongHash_spec hash hd
  obtain ⟨loc, hloop, hnonce⟩ := (compute2_returned_iff fuel hash workBuffer workBufferLength
    difficulty v _ hl).1 hret
  obtain ⟨m, hm, e, hge, _⟩ := (compute2Loop_search _ _ difficulty workBuffer hn hlen fuel
    loc).1 hloop
  obtain ⟨vm, em, hc, _, hr, _⟩ := iterBody_init _ (workBufferLength / 8) hn workBuffer hlen m
  rw [e] at em
  simp only [Option.some.injEq] at em
  subst em
  have hlt : loc.result < 2 ^ 64 := by rw [hr]; exact attemptResult_lt _ _
  have hge' : difficulty ≤ numberOfLeadingZeros64 loc.result := by rw [hr]; exact hge
  refine ⟨loc, ?_, hnonce, hge', hlt, ?_, _, m, hl, hm, by rw [← hnonce, hc], ?_⟩
  · unfold compute2Run
    simp only [hl]
    exact hloop
  · intro h1
    have h63 := lt_of_one_le_numberOfLeadingZeros64 loc.result hlt (le_trans h1 hge')
    exact ⟨h63, Nat.testBit_lt_two_pow h63⟩
  · intro b hb
    rw [hr]
    exact runAttempt_result _ _ hn b hb

set_option maxRecDepth 100000 in
/-- C2, at the digest `0, 1, …, 31`, a buffer of three words and difficulty 3, where the
search returns nonce 4. -/
theorem compute2_sound_witness :
    IsDigest (List.range 32) ∧ 1 ≤ 24 / 8 ∧ 24 / 8 ≤ [0, 0, 0].length ∧
      compute2 5 (List.range 32) [0, 0, 0] 24 3 = Outcome.returned 4 ∧
      ∃ loc, compute2Run 5 (List.range 32) [0, 0, 0] 24 3 = Outcome.returned loc ∧
        loc.nonce = 4 ∧
        (3 : Int) ≤ numberOfLeadingZeros64 loc.result ∧
        loc.result < 2 ^ 64 ∧
        ((1 : Int) ≤ 3 → loc.result < 2 ^ 63 ∧ loc.result.testBit 63 = false) ∧
        ∃ longHash m, loadLongHash (List.range 32) = some longHash ∧ m < 5 ∧
          4 = m % 2 ^ 32 ∧
          ∀ b : List Nat, 24 / 8 ≤ b.length →
            ∃ st b', runAttempt (24 / 8) (deriveState longHash (seedAt m)) b =
              some (st, b', loc.result) :=
  ⟨by decide, by decide, by decide, by decide,
    compute2_sound (List.range 32) [0, 0, 0] 24 3 5 4 (by decide) (by decide) (by decide)
      (by decide)⟩

/-- C8: for every 32-byte digest, every buffer of at least `n ≥ 1` words and every attempt
number `k` (the first attempt is number 0), the locals `vk` on entry to attempt `k` hold the
seed `8682522807148012 * 1181783497276652981 ^ k mod 2^64`, the loop body multiplies it once
more, to `seedAt k = 8682522807148012 * 1181783497276652981 ^ (k + 1) mod 2^64`, and runs the
attempt from the state `state[i] = longHash[i] ^ seedAt k`; for `k = 0` the seed is the one
stored by `test4` and the state the one stored by `test5`. -/
theorem seed_progression (hash workBuffer : List Nat) (n k : Nat) (hd : IsDigest hash)
    (hn : 1 ≤ n) (hlen : n ≤ workBuffer.length) :
    ∃ longHash vk v1, loadLongHash hash = some longHash ∧
      iterBody longHash n k (initLocals workBuffer) = some vk ∧
      vk.seed = (8682522807148012 * 1181783497276652981 ^ k) % 2 ^ 64 ∧
      (vk.seed * seedMultiplier) % 2 ^ 64 = seedAt k ∧
      seedAt k = (8682522807148012 * 1181783497276652981 ^ (k + 1)) % 2 ^ 64 ∧
      loopBody longHash n vk = some v1 ∧
      v1.seed = seedAt k ∧
      (∃ st b, runAttempt n (deriveState longHash (seedAt k)) vk.workBuffer =
          some (st, b, v1.result) ∧ v1.state = st ∧ v1.workBuffer = b) ∧
      deriveState longHash (seedAt k) =
        { w0 := longHash.w0 ^^^ seedAt k, w1 := longHash.w1 ^^^ seedAt k,
          w2 := longHash.w2 ^^^ seedAt k, w3 := longHash.w3 ^^^ seedAt k } ∧
      Test.test4 = seedAt 0 ∧
      Test.test5 longHash = deriveState longHash (seedAt 0) := by
  obtain ⟨lh, hl⟩ : ∃ lh, loadLongHash hash = some lh := ⟨_, loadLongHash_spec hash hd⟩
  obtain ⟨vk, e, hs, _, hbl, hpos⟩ := iterBody_spec lh n hn k (initLocals workBuffer) hlen
  have hseed : vk.seed = (8682522807148012 * 1181783497276652981 ^ k) % 2 ^ 64 := by
    have hb : vk.seed < 2 ^ 64 := by
      cases k with
      | zero =>
        simp only [iterBody, Option.some.injEq] at e
        rw [← e]
        show seedInit < 2 ^ 64
        decide
      | succ k => exact (hpos (Nat.succ_pos k)).1
    rw [← Nat.mod_eq_of_lt hb]
    exact hs
  have hnext : (vk.seed * seedMultiplier) % 2 ^ 64 = seedAt k := by
    have ep : 1181783497276652981 ^ (k + 1) = 1181783497276652981 ^ k * 1181783497276652981 :=
      Nat.pow_succ _ _
    rw [hseed, Nat.mod_mul_mod]
    unfold seedAt seedMultiplier
    rw [ep, Nat.mul_assoc]
  have hlen' : n ≤ vk.workBuffer.length := by
    rw [hbl]; exact hlen
  obtain ⟨v1, e1, _, h2, _, _, h5⟩ := loopBody_spec lh n vk hn hlen'
  rw [hnext] at h2
  rw [h2] at h5
  have h0 : seedAt 0 = (8682522807148012 * 1181783497276652981) % 2 ^ 64 := by decide
  have h4 : Test.test4 = seedAt 0 := by
    rw [h0]; rfl
  refine ⟨lh, vk, v1, hl, e, hseed, hnext, rfl, e1, h2, ⟨_, _, h5, rfl, rfl⟩, rfl, h4, ?_⟩
  unfold Test.test5 deriveState
  rw [h0]

/-- C8, at the digest `0, 1, …, 31`, a buffer of two words and attempt number 5. -/
theorem seed_progression_witness :
    IsDigest (List.range 32) ∧ 1 ≤ 2 ∧ 2 ≤ [0, 0].length ∧
      seedAt 5 = 11275974910416679116 ∧
      ∃ longHash vk v1, loadLongHash (List.range 32) = some longHash ∧
        iterBody longHash 2 5 (initLocals [0, 0]) = some vk ∧
        vk.seed = (8682522807148012 * 1181783497276652981 ^ 5) % 2 ^ 64 ∧
        (vk.seed * seedMultiplier) % 2 ^ 64 = seedAt 5 ∧
        seedAt 5 = (8682522807148012 * 1181783497276652981 ^ (5 + 1)) % 2 ^ 64 ∧
        loopBody longHash 2 vk = some v1 ∧
        v1.seed = seedAt 5 ∧
        (∃ st b, runAttempt 2 (deriveState longHash (seedAt 5)) vk.workBuffer =
            some (st, b, v1.result) ∧ v1.state = st ∧ v1.workBuffer = b) ∧
        deriveState longHash (seedAt 5) =
          { w0 := longHash.w0 ^^^ seedAt 5, w1 := longHash.w1 ^^^ seedAt 5,
            w2 := longHash.w2 ^^^ seedAt 5, w3 := longHash.w3 ^^^ seedAt 5 } ∧
        Test.test4 = seedAt 0 ∧
        Test.test5 longHash = deriveState longHash (seedAt 0) :=
  ⟨by decide, by decide, by decide, by decide,
    seed_progression (List.range 32) [0, 0] 2 5 (by decide) (by decide) (by decide)⟩

/-- C9: for every 32-byte digest and every buffer of at least `n = workBufferLength / 8 ≥ 1`
words, `compute2` with `difficulty = 0` returns nonce 0 as soon as it may run one attempt, and
the locals at the return are those after exactly one attempt: the seed has been multiplied
once and `result` is the result of attempt number 0. -/
theorem compute2_zero_difficulty (hash workBuffer : List Nat) (workBufferLength : Nat)
    (hd : IsDigest hash) (hn : 1 ≤ workBufferLength / 8)
    (hlen : workBufferLength / 8 ≤ workBuffer.length) :
    compute2 1 hash workBuffer workBufferLength 0 = Outcome.returned 0 ∧
      ∀ fuel, compute2 (fuel + 1) hash workBuffer workBufferLength 0 = Outcome.returned 0 ∧
        ∃ longHash loc, loadLongHash hash = some longHash ∧
          compute2Run (fuel + 1) hash workBuffer workBufferLength 0 = Outcome.returned loc ∧
          loopBody longHash (workBufferLength / 8) (initLocals workBuffer) = some loc ∧
          loc.nonce = 0 ∧ loc.seed = (8682522807148012 * 1181783497276652981) % 2 ^ 64 := by
  obtain ⟨lh, hl⟩ : ∃ lh, loadLongHash hash = some lh := ⟨_, loadLongHash_spec hash hd⟩
  obtain ⟨v0, e0, hc, hs, hr, _⟩ := iterBody_init lh (workBufferLength / 8) hn workBuffer hlen 0
  have hbody : loopBody lh (workBufferLength / 8) (initLocals workBuffer) = some v0 := by
    rw [← e0]
    simp only [iterBody]
    cases loopBody lh (workBufferLength / 8) (initLocals workBuffer) <;> rfl
  have hge : (0 : Int) ≤ numberOfLeadingZeros64
      (attemptResult (workBufferLength / 8) (deriveState lh (seedAt 0))) :=
    (numberOfLeadingZeros64_range _ (attemptResult_lt _ _)).1
  have hall : ∀ fuel, compute2Loop lh (workBufferLength / 8) 0 (fuel + 1)
      (initLocals workBuffer) = Outcome.returned v0 := by
    intro fuel
    rw [compute2Loop_search lh _ 0 workBuffer hn hlen]
    exact ⟨0, Nat.succ_pos fuel, e0, hge, fun u hu => absurd hu (Nat.not_lt_zero u)⟩
  have hret : ∀ fuel, compute2 (fuel + 1) hash workBuffer workBufferLength 0 =
      Outcome.returned 0 := by
    intro fuel
    rw [compute2_returned_iff _ _ _ _ _ _ lh hl]
    exact ⟨v0, hall fuel, hc⟩
  refine ⟨hret 0, fun fuel => ⟨hret fuel, lh, v0, hl, ?_, hbody, hc, ?_⟩⟩
  · unfold compute2Run
    simp only [hl]
    exact hall fuel
  · rw [hs]
    decide

set_option maxRecDepth 100000 in
/-- C9, at the digest `0, 1, …, 31` and a buffer of two words. -/
theorem compute2_zero_difficulty_witness :
    IsDigest (List.range 32) ∧ 1 ≤ 16 / 8 ∧ 16 / 8 ≤ [0, 0].length ∧
      compute2 1 (List.range 32) [0, 0] 16 0 = Outcome.returned 0 :=
  ⟨by decide, by decide, by decide,
    (compute2_zero_difficulty (List.range 32) [0, 0] 16 (by decide) (by decide)
      (by decide)).1⟩

/-- C10: for every 32-byte digest, every buffer of at least `n ≥ 1` words and all
difficulties `k2 ≤ k`, a result with at least `k` leading zero bits has at least `k2`, and
when `compute2` at difficulty `k` returns `v` within `2^32` attempts, `compute2` at difficulty
`k2` returns, within the same number of attempts, a nonce `v2 ≤ v`. -/
theorem difficulty_monotone (hash workBuffer : List Nat) (workBufferLength : Nat)
    (k k2 : Int) (fuel v : Nat) (hd : IsDigest hash) (hn : 1 ≤ workBufferLength / 8)
    (hlen : workBufferLength / 8 ≤ workBuffer.length) (hk : k2 ≤ k) (hfuel : fuel ≤ 2 ^ 32)
    (hret : compute2 fuel hash workBuffer workBufferLength k = Outcome.returned v) :
    (∀ r : Nat, k ≤ numberOfLeadingZeros64 r → k2 ≤ numberOfLeadingZeros64 r) ∧
      ∃ v2, v2 ≤ v ∧
        compute2 fuel hash workBuffer workBufferLength k2 = Outcome.returned v2 := by
  refine ⟨fun r h => le_trans hk h, ?_⟩
  obtain ⟨lh, hl⟩ : ∃ lh, loadLongHash hash = some lh := ⟨_, loadLongHash_spec hash hd⟩
  obtain ⟨loc, hloop, hnonce⟩ := (compute2_returned_iff fuel hash workBuffer workBufferLength
    k v lh hl).1 hret
  obtain ⟨m, hm, e, hge, _⟩ := (compute2Loop_search lh _ k workBuffer hn hlen fuel loc).1 hloop
  obtain ⟨vm, em, hc, _⟩ := iterBody_init lh (workBufferLength / 8) hn workBuffer hlen m
  rw [e] at em
  simp only [Option.some.injEq] at em
  subst em
  have hv : v = m := by
    rw [← hnonce, hc]
    exact Nat.mod_eq_of_lt (by omega)
  subst hv
  have hex : ∃ u, k2 ≤ numberOfLeadingZeros64
      (attemptResult (workBufferLength / 8) (deriveState lh (seedAt u))) :=
    ⟨v, le_trans hk hge⟩
  have hmin : ∀ u, u < Nat.find hex → numberOfLeadingZeros64
      (attemptResult (workBufferLength / 8) (deriveState lh (seedAt u))) < k2 := by
    intro u hu
    exact lt_of_not_ge (Nat.find_min hex hu)
  have hle : Nat.find hex ≤ v := Nat.find_min' hex (le_trans hk hge)
  obtain ⟨v2, e2, hc2, _⟩ := iterBody_init lh (workBufferLength / 8) hn workBuffer hlen
    (Nat.find hex)
  refine ⟨Nat.find hex, hle, ?_⟩
  rw [compute2_returned_iff _ _ _ _ _ _ lh hl]
  refine ⟨v2, ?_, ?_⟩
  · rw [compute2Loop_search lh _ k2 workBuffer hn hlen]
    exact ⟨Nat.find hex, by omega, e2, Nat.find_spec hex, hmin⟩
  · rw [hc2]
    exact Nat.mod_eq_of_lt (by omega)

set_option maxRecDepth 100000 in
/-- C10, at the digest `0, 1, …, 31`, a buffer of one word and difficulties `1 ≤ 2`: the
search at difficulty 2 returns nonce 4, the search at difficulty 1 returns nonce 0. -/
theorem difficulty_monotone_witness :
    IsDigest (List.range 32) ∧ 1 ≤ 8 / 8 ∧ 8 / 8 ≤ [0].length ∧ (1 : Int) ≤ 2 ∧
      5 ≤ 2 ^ 32 ∧ compute2 5 (List.range 32) [0] 8 2 = Outcome.returned 4 ∧
      compute2 5 (List.range 32) [0] 8 1 = Outcome.returned 0 ∧
      ((∀ r : Nat, (2 : Int) ≤ numberOfLeadingZeros64 r → (1 : Int) ≤ numberOfLeadingZeros64 r) ∧
        ∃ v2, v2 ≤ 4 ∧ compute2 5 (List.range 32) [0] 8 1 = Outcome.returned v2) :=
  ⟨by decide, by decide, by decide, by decide, by decide, by decide, by decide,
    difficulty_monotone (List.range 32) [0] 8 2 1 5 4 (by decide) (by decide) (by decide)
      (by decide) (by decide) (by decide)⟩

/-! ## Determinism, unsatisfiable difficulties, nonce counting -/

/-- On a buffer of at least `n ≥ 1` words the loop of `compute2` never runs into undefined
behaviour. -/
theorem compute2Loop_ne_undefined (lh : Words) (n : Nat) (d : Int) (hn : 1 ≤ n) :
    ∀ (fuel : Nat) (v : Locals), n ≤ v.workBuffer.length →
      compute2Loop lh n d fuel v ≠ Outcome.undefined := by
  intro fuel
  induction fuel with
  | zero => intro v _ h; simp [compute2Loop] at h
  | succ fuel ih =>
    intro v hlen
    obtain ⟨v1, e1, _, _, _, hl1, _⟩ := loopBody_spec lh n v hn hlen
    rw [compute2Loop]
    simp only [e1]
    split
    · exact ih v1 (by omega)
    · simp

/-- The search of `compute2` in terms of the attempts alone: on a buffer of at least `n ≥ 1`
words it returns `v` within `fuel` attempts exactly when `v = m mod 2^32` for the first
attempt number `m` whose result passes the difficulty test, and `m < fuel`. -/
theorem compute2_search (fuel : Nat) (hash buf : List Nat) (len : Nat) (d : Int) (v : Nat)
    (lh : Words) (hl : loadLongHash hash = some lh) (hn : 1 ≤ len / 8)
    (hlen : len / 8 ≤ buf.length) :
    compute2 fuel hash buf len d = Outcome.returned v ↔
      ∃ m, m < fuel ∧ v = m % 2 ^ 32 ∧
        d ≤ numberOfLeadingZeros64 (attemptResult (len / 8) (deriveState lh (seedAt m))) ∧
        ∀ u, u < m →
          numberOfLeadingZeros64 (attemptResult (len / 8) (deriveState lh (seedAt u))) < d := by
  rw [compute2_returned_iff fuel hash buf len d v lh hl]
  constructor
  · rintro ⟨loc, hloop, hnonce⟩
    obtain ⟨m, hm, e, hge, hfail⟩ := (compute2Loop_search lh _ d buf hn hlen fuel loc).1 hloop
    obtain ⟨vm, em, hc, _⟩ := iterBody_init lh (len / 8) hn buf hlen m
    rw [e] at em
    simp only [Option.some.injEq] at em
    subst em
    exact ⟨m, hm, by rw [← hnonce, hc], hge, hfail⟩
  · rintro ⟨m, hm, hv, hge, hfail⟩
    obtain ⟨vm, em, hc, _⟩ := iterBody_init lh (len / 8) hn buf hlen m
    exact ⟨vm, (compute2Loop_search lh _ d buf hn hlen fuel vm).2 ⟨m, hm, em, hge, hfail⟩,
      by rw [hc, hv]⟩

theorem compute2_ne_undefined (fuel : Nat) (hash buf : List Nat) (len : Nat) (d : Int)
    (lh : Words) (hl : loadLongHash hash = some lh) (hn : 1 ≤ len / 8)
    (hlen : len / 8 ≤ buf.length) :
    compute2 fuel hash buf len d ≠ Outcome.undefined := by
  have h := compute2Loop_ne_undefined lh (len / 8) d hn fuel (initLocals buf) hlen
  unfold compute2 compute2Run
  simp only [hl]
  cases hc : compute2Loop lh (len / 8) d fuel (initLocals buf) with
  | returned loc => simp
  | undefined => exact absurd hc h
  | outOfFuel => simp

/-- C11: for every 32-byte digest, every difficulty and every byte length that is a positive
multiple of 8, two runs of `compute2` on buffers of at least `n = workBufferLength / 8` words
that differ in their initial contents end the same way for every bound on the number of
attempts (the same nonce when one returns), every attempt gives the same accumulated result on
both, and the buffer after the fill holds in each of its first `n` cells the generator output
written there in that attempt, the bounce reading at indices below `n` alone. -/
theorem compute2_deterministic (hash buf1 buf2 : List Nat) (workBufferLength : Nat)
    (difficulty : Int) (hd : IsDigest hash) (hpos : 0 < workBufferLength)
    (hmul : workBufferLength % 8 = 0) (h1 : workBufferLength / 8 ≤ buf1.length)
    (h2 : workBufferLength / 8 ≤ buf2.length) :
    (∀ fuel, compute2 fuel hash buf1 workBufferLength difficulty =
        compute2 fuel hash buf2 workBufferLength difficulty) ∧
      (∀ S : Words, ∃ st f1 f2 r,
        runAttempt (workBufferLength / 8) S buf1 = some (st, f1, r) ∧
        runAttempt (workBufferLength / 8) S buf2 = some (st, f2, r) ∧
        (∀ i, i < workBufferLength / 8 → f1[i]? = some (outputAt S i) ∧
          f2[i]? = some (outputAt S i)) ∧
        r = xorFold (fun j => outputAt S
              (((outputAt S (workBufferLength / 8 + j) &&& INTEGER_MAX_VALUE) % 2 ^ 32) %
                (workBufferLength / 8))) 1024 (outputAt S 0) ∧
        ∀ r0 : Nat, ((r0 &&& INTEGER_MAX_VALUE) % 2 ^ 32) % (workBufferLength / 8) <
          workBufferLength / 8) := by
  have hn : 1 ≤ workBufferLength / 8 := by omega
  obtain ⟨lh, hl⟩ : ∃ lh, loadLongHash hash = some lh := ⟨_, loadLongHash_spec hash hd⟩
  constructor
  · intro fuel
    have key : ∀ (a b : List Nat), workBufferLength / 8 ≤ a.length →
        workBufferLength / 8 ≤ b.length → ∀ v,
        compute2 fuel hash a workBufferLength difficulty = Outcome.returned v →
        compute2 fuel hash b workBufferLength difficulty = Outcome.returned v := by
      intro a b ha hb v hv
      rw [compute2_search fuel hash a _ _ v lh hl hn ha] at hv
      rw [compute2_search fuel hash b _ _ v lh hl hn hb]
      exact hv
    have u1 := compute2_ne_undefined fuel hash buf1 workBufferLength difficulty lh hl hn h1
    have u2 := compute2_ne_undefined fuel hash buf2 workBufferLength difficulty lh hl hn h2
    cases c1 : compute2 fuel hash buf1 workBufferLength difficulty with
    | returned v => exact (key buf1 buf2 h1 h2 v c1).symm
    | undefined => exact absurd c1 u1
    | outOfFuel =>
      cases c2 : compute2 fuel hash buf2 workBufferLength difficulty with
      | returned v =>
        have := key buf2 buf1 h2 h1 v c2
        rw [c1] at this
        exact absurd this (by simp)
      | undefined => exact absurd c2 u2
      | outOfFuel => rfl
  · intro S
    obtain ⟨f1, e1, _, hin1, _⟩ := runAttempt_spec (workBufferLength / 8) S buf1 hn h1
    obtain ⟨f2, e2, _, hin2, _⟩ := runAttempt_spec (workBufferLength / 8) S buf2 hn h2
    refine ⟨_, f1, f2, _, e1, e2, fun i hi => ⟨hin1 i hi, hin2 i hi⟩, ?_, ?_⟩
    · unfold attemptResult
      apply xorFold_congr
      intro j _
      rw [bounce_index]
    · intro r0
      exact Nat.mod_lt _ (by omega)

set_option maxRecDepth 100000 in
/-- C11, at the digest `0, 1, …, 31`, byte length 16 and two buffers of two and three words
with different contents. -/
theorem compute2_deterministic_witness :
    IsDigest (List.range 32) ∧ 0 < 16 ∧ 16 % 8 = 0 ∧ 16 / 8 ≤ [0, 0].length ∧
      16 / 8 ≤ [7, 8, 9].length ∧
      compute2 1 (List.range 32) [0, 0] 16 1 = Outcome.returned 0 ∧
      ∀ fuel, compute2 fuel (List.range 32) [0, 0] 16 1 =
        compute2 fuel (List.range 32) [7, 8, 9] 16 1 :=
  ⟨by decide, by decide, by decide, by decide, by decide, by decide,
    (compute2_deterministic (List.range 32) [0, 0] [7, 8, 9] 16 1 (by decide) (by decide)
      (by decide) (by decide) (by decide)).1⟩

/-- C12: `numberOfLeadingZeros64 x ≤ 64` for every 64-bit `x`, so for every difficulty of at
least 65, every 32-byte digest and every buffer of at least `n ≥ 1` words no attempt passes
the difficulty test and `compute2` does not return, whatever the bound on the number of
attempts: it is still running when the bound is hit. -/
theorem compute2_unsatisfiable (hash workBuffer : List Nat) (workBufferLength : Nat)
    (difficulty : Int) (hd : IsDigest hash) (hn : 1 ≤ workBufferLength / 8)
    (hlen : workBufferLength / 8 ≤ workBuffer.length) (hdiff : 65 ≤ difficulty) :
    (∀ x : Nat, x < 2 ^ 64 → numberOfLeadingZeros64 x ≤ 64) ∧
      (∀ (S : Words) (b : List Nat), workBufferLength / 8 ≤ b.length →
        ∃ st b' r, runAttempt (workBufferLength / 8) S b = some (st, b', r) ∧
          numberOfLeadingZeros64 r < difficulty) ∧
      (∀ fuel v, compute2 fuel hash workBuffer workBufferLength difficulty ≠
        Outcome.returned v) ∧
      ∀ fuel, compute2 fuel hash workBuffer workBufferLength difficulty =
        Outcome.outOfFuel := by
  obtain ⟨lh, hl⟩ : ∃ lh, loadLongHash hash = some lh := ⟨_, loadLongHash_spec hash hd⟩
  have hfail : ∀ S : Words,
      numberOfLeadingZeros64 (attemptResult (workBufferLength / 8) S) < difficulty := by
    intro S
    have := (numberOfLeadingZeros64_range _ (attemptResult_lt (workBufferLength / 8) S)).2
    omega
  have hnot : ∀ fuel v, compute2 fuel hash workBuffer workBufferLength difficulty ≠
      Outcome.returned v := by
    intro fuel v h
    rw [compute2_search fuel hash workBuffer _ _ v lh hl hn hlen] at h
    obtain ⟨m, _, _, hge, _⟩ := h
    have := hfail (deriveState lh (seedAt m))
    omega
  refine ⟨fun x hx => (numberOfLeadingZeros64_range x hx).2, ?_, hnot, ?_⟩
  · intro S b hb
    obtain ⟨st, b', e⟩ := runAttempt_result (workBufferLength / 8) S hn b hb
    exact ⟨st, b', _, e, hfail S⟩
  · intro fuel
    have hu := compute2_ne_undefined fuel hash workBuffer workBufferLength difficulty lh hl hn
      hlen
    cases c : compute2 fuel hash workBuffer workBufferLength difficulty with
    | returned v => exact absurd c (hnot fuel v)
    | undefined => exact absurd c hu
    | outOfFuel => rfl

set_option maxRecDepth 100000 in
/-- C12, at the digest `0, 1, …, 31`, a buffer of three words and difficulty 65. -/
theorem compute2_unsatisfiable_witness :
    IsDigest (List.range 32) ∧ 1 ≤ 16 / 8 ∧ 16 / 8 ≤ [7, 8, 9].length ∧ (65 : Int) ≤ 65 ∧
      compute2 1 (List.range 32) [7, 8, 9] 16 65 = Outcome.outOfFuel ∧
      ∀ fuel, compute2 fuel (List.range 32) [7, 8, 9] 16 65 = Outcome.outOfFuel :=
  ⟨by decide, by decide, by decide, by decide, by decide,
    (compute2_unsatisfiable (List.range 32) [7, 8, 9] 16 65 (by decide) (by decide)
      (by decide) (by decide)).2.2.2⟩

/-- C13: for every 32-byte digest and every buffer of at least `n ≥ 1` words, the nonce is 0
during the first attempt, and whenever `compute2` returns `v`, it does so after some number
`m` of failed attempts followed by a successful one, with `v = m mod 2^32`, while the seed
held at the return is `seedAt m = 8682522807148012 * 1181783497276652981 ^ (m + 1) mod 2^64`,
multiplied once per attempt whether or not the nonce has wrapped. -/
theorem nonce_counting (hash workBuffer : List Nat) (workBufferLength : Nat)
    (difficulty : Int) (fuel v : Nat) (hd : IsDigest hash) (hn : 1 ≤ workBufferLength / 8)
    (hlen : workBufferLength / 8 ≤ workBuffer.length)
    (hret : compute2 fuel hash workBuffer workBufferLength difficulty = Outcome.returned v) :
    ∃ longHash first loc m, loadLongHash hash = some longHash ∧
      loopBody longHash (workBufferLength / 8) (initLocals workBuffer) = some first ∧
      first.nonce = 0 ∧
      compute2Run fuel hash workBuffer workBufferLength difficulty = Outcome.returned loc ∧
      iterBody longHash (workBufferLength / 8) (m + 1) (initLocals workBuffer) = some loc ∧
      m < fuel ∧
      (∀ u, u < m → ∃ w, iterBody longHash (workBufferLength / 8) (u + 1)
          (initLocals workBuffer) = some w ∧ w.nonce = u % 2 ^ 32 ∧
        numberOfLeadingZeros64 w.result < difficulty) ∧
      difficulty ≤ numberOfLeadingZeros64 loc.result ∧
      loc.nonce = v ∧ v = m % 2 ^ 32 ∧
      loc.seed = seedAt m ∧
      seedAt m = (8682522807148012 * 1181783497276652981 ^ (m + 1)) % 2 ^ 64 := by
  obtain ⟨lh, hl⟩ : ∃ lh, loadLongHash hash = some lh := ⟨_, loadLongHash_spec hash hd⟩
  obtain ⟨loc, hloop, hnonce⟩ := (compute2_returned_iff fuel hash workBuffer workBufferLength
    difficulty v lh hl).1 hret
  obtain ⟨m, hm, e, hge, hfail⟩ := (compute2Loop_returned_iff lh _ difficulty fuel
    (initLocals workBuffer) loc).1 hloop
  obtain ⟨vm, em, hc, hs, _, _⟩ := iterBody_init lh (workBufferLength / 8) hn workBuffer hlen m
  rw [e] at em
  simp only [Option.some.injEq] at em
  subst em
  obtain ⟨v0, e0, hc0, _⟩ := iterBody_init lh (workBufferLength / 8) hn workBuffer hlen 0
  have hbody : loopBody lh (workBufferLength / 8) (initLocals workBuffer) = some v0 := by
    rw [← e0]
    simp only [iterBody]
    cases loopBody lh (workBufferLength / 8) (initLocals workBuffer) <;> rfl
  refine ⟨lh, v0, loc, m, hl, hbody, hc0, ?_, e, hm, ?_, hge, hnonce, by rw [← hnonce, hc], hs,
    rfl⟩
  · unfold compute2Run
    simp only [hl]
    exact hloop
  · intro u hu
    obtain ⟨w, hw, hlt⟩ := hfail u hu
    obtain ⟨vu, eu, hcu, _⟩ := iterBody_init lh (workBufferLength / 8) hn workBuffer hlen u
    rw [hw] at eu
    simp only [Option.some.injEq] at eu
    subst eu
    exact ⟨w, hw, hcu, hlt⟩

set_option maxRecDepth 100000 in
/-- C13, at the digest `0, 1, …, 31`, a buffer of one word and difficulty 2, where four
attempts fail and the fifth returns nonce 4. -/
theorem nonce_counting_witness :
    IsDigest (List.range 32) ∧ 1 ≤ 8 / 8 ∧ 8 / 8 ≤ [0].length ∧
      compute2 5 (List.range 32) [0] 8 2 = Outcome.returned 4 ∧
      ∃ loc m, compute2Run 5 (List.range 32) [0] 8 2 = Outcome.returned loc ∧ m < 5 ∧
        loc.nonce = 4 ∧ 4 = m % 2 ^ 32 ∧ loc.seed = seedAt m :=
  ⟨by decide, by decide, by decide, by decide, by
    obtain ⟨_, _, loc, m, _, _, _, hrun, _, hm, _, _, hc, hv, hs, _⟩ :=
      nonce_counting (List.range 32) [0] 8 2 5 4 (by decide) (by decide) (by decide)
        (by decide)
    exact ⟨loc, m, hrun, hm, hc, hv, hs⟩⟩

/-! ## Bounds of the bounce reads -/

/-- C14: for every generator output `r` and every `n ≥ 1` the index
`(uint32_t) (r & 0x7fffffff) % n` of the bounce loop is below `n`; on a buffer of exactly `n`
words, where any access outside the first `n` words would be undefined behaviour, the attempt
runs to its end, every cell of the buffer after the fill holds the generator output written
there by the fill loop, cell 0 included, and each of the 1024 reads is at such a cell. -/
theorem bounce_in_bounds (n : Nat) (hn : 1 ≤ n) :
    (∀ r : Nat, ((r &&& INTEGER_MAX_VALUE) % 2 ^ 32) % n < n) ∧
      ∀ (S : Words) (workBuffer : List Nat), workBuffer.length = n →
        ∃ st filled result, runAttempt n S workBuffer = some (st, filled, result) ∧
          fillLoop n 0 S workBuffer = some (stateAfter S n, filled) ∧
          filled.length = n ∧
          (∀ i, i < n → filled[i]? = some (outputAt S i)) ∧
          filled[0]? = some (outputAt S 0) ∧
          bounceLoop filled n 1024 (stateAfter S n) (outputAt S 0) = some (result, st) ∧
          ∀ j, j < 1024 →
            ∃ index,
              index = (((xoshiro256p (stateAfter (stateAfter S n) j)).1 &&&
                INTEGER_MAX_VALUE) % 2 ^ 32) % n ∧
              index < n ∧ filled[index]? = some (outputAt S index) := by
  have hidx : ∀ r : Nat, ((r &&& INTEGER_MAX_VALUE) % 2 ^ 32) % n < n :=
    fun r => Nat.mod_lt _ (by omega)
  refine ⟨hidx, ?_⟩
  intro S workBuffer hlen
  obtain ⟨filled, ef, hl, hin, _⟩ := fillLoop_spec n 0 S workBuffer (by omega)
  simp only [Nat.zero_add] at hin
  have h0 : filled[0]? = some (outputAt S 0) := hin 0 (by omega)
  have hb := bounceLoop_spec filled n (by omega) (by omega) 1024 (stateAfter S n) (outputAt S 0)
  generalize xorFold (fun j => filled.getD ((outputAt (stateAfter S n) j % 2 ^ 31) % n) 0)
    1024 (outputAt S 0) = result at hb
  generalize stateAfter (stateAfter S n) 1024 = st at hb
  have er : runAttempt n S workBuffer = some (st, filled, result) := by
    unfold runAttempt
    simp only [ef, h0, hb]
  refine ⟨st, filled, result, er, ef, by rw [hl, hlen], hin, h0, hb, ?_⟩
  intro j _
  exact ⟨_, rfl, hidx _, hin _ (hidx _)⟩

/-- C14, at `n = 3`, the state `(1, 2, 3, 4)` and a buffer of three words. -/
theorem bounce_in_bounds_witness :
    1 ≤ 3 ∧ (∀ r : Nat, ((r &&& INTEGER_MAX_VALUE) % 2 ^ 32) % 3 < 3) ∧
      ∃ st filled result, runAttempt 3 (Words.mk 1 2 3 4) [0, 0, 0] =
          some (st, filled, result) ∧ filled.length = 3 :=
  ⟨by decide, (bounce_in_bounds 3 (by decide)).1, by
    obtain ⟨st, filled, result, er, _, hl, _⟩ :=
      (bounce_in_bounds 3 (by decide)).2 (Words.mk 1 2 3 4) [0, 0, 0] rfl
    exact ⟨st, filled, result, er, hl⟩⟩

/-! ## The seeds -/

/-- The multiplier is `1` modulo 4 and not modulo 8, so `2^62` divides
`1181783497276652981 ^ d - 1` for no `d` that `2^60` does not divide. -/
theorem two_pow_dvd_multiplier_pow_sub_one (d : Nat)
    (h : (2 : ℤ) ^ 62 ∣ (1181783497276652981 : ℤ) ^ d - 1) : 2 ^ 60 ∣ d := by
  have h1 : emultiplicity 2 ((1181783497276652981 : ℤ) ^ d - 1 ^ d) =
      emultiplicity 2 ((1181783497276652981 : ℤ) - 1) + emultiplicity (2 : ℤ) d :=
    Int.two_pow_sub_pow' d (by decide) (by decide)
  rw [one_pow] at h1
  have h2 : emultiplicity 2 ((1181783497276652981 : ℤ) - 1) = ((2 : ℕ) : ℕ∞) := by
    rw [emultiplicity_eq_coe]
    constructor <;> decide
  rw [pow_dvd_iff_le_emultiplicity, h1, h2] at h
  have h3 : ((60 : ℕ) : ℕ∞) ≤ emultiplicity (2 : ℤ) d := by
    cases he : emultiplicity (2 : ℤ) (d : ℤ) with
    | top => exact le_top
    | coe k =>
      rw [he] at h
      norm_cast at h ⊢
      omega
  rw [← pow_dvd_iff_le_emultiplicity] at h3
  exact_mod_cast h3

theorem odd_seed_factor (k : Nat) : Odd (2170630701787003 * 1181783497276652981 ^ k) :=
  Odd.mul (by decide) (Odd.pow (by decide))

theorem seedAt_ne_zero (k : Nat) : seedAt k ≠ 0 := by
  intro h
  unfold seedAt at h
  have e : 8682522807148012 * 1181783497276652981 ^ (k + 1) =
      4 * (2170630701787003 * 1181783497276652981 ^ (k + 1)) := by ring
  rw [e] at h
  obtain ⟨q, hq⟩ := odd_seed_factor (k + 1)
  rw [hq] at h
  omega

/-- Two attempts with the same seed have numbers that differ by a multiple of `2^60`. -/
theorem seedAt_eq_imp (a d : Nat) (h : seedAt a = seedAt (a + d)) : 2 ^ 60 ∣ d := by
  apply two_pow_dvd_multiplier_pow_sub_one
  have hM : 0 < 1181783497276652981 := by norm_num
  have had : a + 1 ≤ a + d + 1 := by omega
  have e1 : a + d + 1 = (a + 1) + d := by omega
  have hp : 1181783497276652981 ^ (a + 1) ≤ 1181783497276652981 ^ (a + d + 1) :=
    Nat.pow_le_pow_right hM had
  have hle : 8682522807148012 * 1181783497276652981 ^ (a + 1) ≤
      8682522807148012 * 1181783497276652981 ^ (a + d + 1) :=
    Nat.mul_le_mul_left 8682522807148012 hp
  unfold seedAt at h
  have hdvd := (Nat.modEq_iff_dvd' hle).1 h
  have hpos : 1 ≤ 1181783497276652981 ^ d := Nat.one_le_pow _ _ hM
  have e : 8682522807148012 * 1181783497276652981 ^ (a + d + 1) -
      8682522807148012 * 1181783497276652981 ^ (a + 1) =
      4 * ((2170630701787003 * 1181783497276652981 ^ (a + 1)) *
        (1181783497276652981 ^ d - 1)) := by
    rw [e1, Nat.pow_add, Nat.mul_sub, Nat.mul_sub]
    ring_nf
  rw [e] at hdvd
  have e64 : 2 ^ 64 = 4 * 2 ^ 62 := by norm_num
  rw [e64] at hdvd
  have h62 : 2 ^ 62 ∣ (2170630701787003 * 1181783497276652981 ^ (a + 1)) *
      (1181783497276652981 ^ d - 1) := Nat.dvd_of_mul_dvd_mul_left (by decide) hdvd
  have hco : Nat.Coprime (2 ^ 62) (2170630701787003 * 1181783497276652981 ^ (a + 1)) :=
    Nat.Coprime.pow_left 62 (Nat.coprime_two_left.2 (odd_seed_factor (a + 1)))
  have hfin : 2 ^ 62 ∣ 1181783497276652981 ^ d - 1 := hco.dvd_of_dvd_mul_left h62
  have hz := Int.natCast_dvd_natCast.2 hfin
  rw [Nat.cast_sub hpos] at hz
  exact_mod_cast hz

theorem deriveState_seed_injective (longHash : Words) (s t : Nat)
    (h : deriveState longHash s = deriveState longHash t) : s = t := by
  unfold deriveState at h
  simp only [Words.mk.injEq] at h
  exact Nat.xor_right_injective h.1

/-- C15: the seeds `seedAt k = 8682522807148012 * 1181783497276652981 ^ (k + 1) mod 2^64` are
non-zero, and for attempt numbers `a ≠ b` below `2^32` the seeds differ, hence so do the
generator states the two attempts start from, whatever the digest. -/
theorem seeds_distinct :
    (∀ k, seedAt k ≠ 0 ∧
      seedAt k = (8682522807148012 * 1181783497276652981 ^ (k + 1)) % 2 ^ 64) ∧
      ∀ a b, a < 2 ^ 32 → b < 2 ^ 32 → a ≠ b →
        seedAt a ≠ seedAt b ∧
          ∀ longHash : Words,
            deriveState longHash (seedAt a) ≠ deriveState longHash (seedAt b) := by
  refine ⟨fun k => ⟨seedAt_ne_zero k, rfl⟩, ?_⟩
  intro a b ha hb hab
  have hne : seedAt a ≠ seedAt b := by
    intro h
    rcases Nat.lt_or_ge a b with hlt | hge
    · have e : b = a + (b - a) := by omega
      rw [e] at h
      have := Nat.le_of_dvd (by omega) (seedAt_eq_imp a (b - a) h)
      omega
    · have e : a = b + (a - b) := by omega
      rw [e] at h
      have := Nat.le_of_dvd (by omega) (seedAt_eq_imp b (a - b) h.symm)
      omega
  exact ⟨hne, fun lh h => hne (deriveState_seed_injective lh _ _ h)⟩

/-- C15, at attempt numbers 0 and 1. -/
theorem seeds_distinct_witness :
    0 < 2 ^ 32 ∧ 1 < 2 ^ 32 ∧ 0 ≠ 1 ∧ seedAt 0 = 3447679086515839964 ∧ seedAt 0 ≠ seedAt 1 :=
  ⟨by decide, by decide, by decide, by decide,
    (seeds_distinct.2 0 1 (by decide) (by decide) (by decide)).1⟩

/-! ## The all-zero generator state -/

theorem stateAfter_zero (k : Nat) : stateAfter (Words.mk 0 0 0 0) k = Words.mk 0 0 0 0 := by
  induction k with
  | zero => rfl
  | succ k ih =>
    have e : (xoshiro256p (Words.mk 0 0 0 0)).2 = Words.mk 0 0 0 0 := by decide
    rw [stateAfter, e, ih]

theorem outputAt_zero (i : Nat) : outputAt (Words.mk 0 0 0 0) i = 0 := by
  unfold outputAt
  rw [stateAfter_zero]
  decide

theorem xorFold_zero (f : Nat → Nat) (hf : ∀ j, f j = 0) (k : Nat) : xorFold f k 0 = 0 := by
  induction k with
  | zero => rfl
  | succ k ih =>
    simp only [xorFold]
    rw [ih, hf k]
    rfl

theorem attemptResult_zero (n : Nat) : attemptResult n (Words.mk 0 0 0 0) = 0 := by
  unfold attemptResult
  rw [outputAt_zero]
  exact xorFold_zero _ (fun j => outputAt_zero _) 1024

/-- C16: `xoshiro256p` on the state `(0, 0, 0, 0)` returns 0 and leaves `(0, 0, 0, 0)`; the
32-byte digest made of four big-endian copies of the first seed loads to four copies of that
seed, the first attempt starts from the all-zero state, fills the first `n` cells with zeros
and accumulates 0, and `compute2` returns nonce 0 on it for every difficulty of at most 64
and every buffer of at least `n ≥ 1` words. -/
theorem degenerate_zero_state :
    xoshiro256p (Words.mk 0 0 0 0) = (0, Words.mk 0 0 0 0) ∧
      IsDigest degenerateDigest ∧
      loadLongHash degenerateDigest =
        some (Words.mk (seedAt 0) (seedAt 0) (seedAt 0) (seedAt 0)) ∧
      seedAt 0 = (8682522807148012 * 1181783497276652981) % 2 ^ 64 ∧
      deriveState (Words.mk (seedAt 0) (seedAt 0) (seedAt 0) (seedAt 0)) (seedAt 0) =
        Words.mk 0 0 0 0 ∧
      ∀ (workBuffer : List Nat) (workBufferLength : Nat) (difficulty : Int),
        1 ≤ workBufferLength / 8 → workBufferLength / 8 ≤ workBuffer.length →
        difficulty ≤ 64 →
          (∃ filled, runAttempt (workBufferLength / 8) (Words.mk 0 0 0 0) workBuffer =
              some (Words.mk 0 0 0 0, filled, 0) ∧
            ∀ i, i < workBufferLength / 8 → filled[i]? = some 0) ∧
          ∀ fuel, compute2 (fuel + 1) degenerateDigest workBuffer workBufferLength difficulty =
            Outcome.returned 0 := by
  have hl : loadLongHash degenerateDigest =
      some (Words.mk (seedAt 0) (seedAt 0) (seedAt 0) (seedAt 0)) := by decide
  have hs : deriveState (Words.mk (seedAt 0) (seedAt 0) (seedAt 0) (seedAt 0)) (seedAt 0) =
      Words.mk 0 0 0 0 := by
    simp only [deriveState, Nat.xor_self]
  refine ⟨by decide, by decide, hl, by decide, hs, ?_⟩
  intro workBuffer workBufferLength difficulty hn hlen hd
  constructor
  · obtain ⟨filled, e, _, hin, _⟩ :=
      runAttempt_spec (workBufferLength / 8) (Words.mk 0 0 0 0) workBuffer hn hlen
    rw [stateAfter_zero, attemptResult_zero] at e
    refine ⟨filled, e, ?_⟩
    intro i hi
    rw [hin i hi, outputAt_zero]
  · intro fuel
    rw [compute2_search (fuel + 1) degenerateDigest workBuffer workBufferLength difficulty 0
      _ hl hn hlen]
    refine ⟨0, Nat.succ_pos fuel, by decide, ?_, fun u hu => absurd hu (Nat.not_lt_zero u)⟩
    rw [hs, attemptResult_zero]
    have e : numberOfLeadingZeros64 0 = 64 := by decide
    rw [e]
    exact hd

set_option maxRecDepth 100000 in
/-- C16, at a buffer of two words and difficulty 64. -/
theorem degenerate_zero_state_witness :
    1 ≤ 16 / 8 ∧ 16 / 8 ≤ [5, 6].length ∧ (64 : Int) ≤ 64 ∧
      degenerateDigest =
        [47, 216, 157, 220, 211, 81, 227, 220, 47, 216, 157, 220, 211, 81, 227, 220,
          47, 216, 157, 220, 211, 81, 227, 220, 47, 216, 157, 220, 211, 81, 227, 220] ∧
      compute2 1 degenerateDigest [5, 6] 16 64 = Outcome.returned 0 ∧
      ∀ fuel, compute2 (fuel + 1) degenerateDigest [5, 6] 16 64 = Outcome.returned 0 :=
  ⟨by decide, by decide, by decide, by decide, by decide,
    (degenerate_zero_state.2.2.2.2.2 [5, 6] 16 64 (by decide) (by decide) (by decide)).2⟩

/-! ## The state transition is a bijection -/

theorem xoshiro256p_wf (s : Words) (h : s.WF) : (xoshiro256p s).2.WF := by
  obtain ⟨h0, h1, h2, h3⟩ := h
  have hx : s.w3 ^^^ s.w1 < 2 ^ 64 := Nat.xor_lt_two_pow h3 h1
  have ht : (s.w1 <<< 17) % 2 ^ 64 < 2 ^ 64 := Nat.mod_lt _ (by decide)
  refine ⟨Nat.xor_lt_two_pow h0 hx, Nat.xor_lt_two_pow h1 (Nat.xor_lt_two_pow h2 h0),
    Nat.xor_lt_two_pow (Nat.xor_lt_two_pow h2 h0) ht, ?_⟩
  show ((s.w3 ^^^ s.w1) <<< 45) % 2 ^ 64 ||| (s.w3 ^^^ s.w1) >>> (64 - 45) < 2 ^ 64
  apply Nat.or_lt_two_pow (Nat.mod_lt _ (by decide))
  rw [Nat.shiftRight_eq_div_pow]
  exact lt_of_le_of_lt (Nat.div_le_self _ _) hx

/-- The rotation by 45 loses nothing: bit `i` of `x` is bit `(i + 45) % 64` of the result. -/
theorem rotl64_injective (x y : Nat) (hx : x < 2 ^ 64) (hy : y < 2 ^ 64)
    (h : rotl64 x 45 = rotl64 y 45) : x = y := by
  apply Nat.eq_of_testBit_eq
  intro i
  by_cases hi : i < 64
  · have hj : (i + 45) % 64 < 64 := Nat.mod_lt _ (by decide)
    have e : ((i + 45) % 64 + (64 - 45)) % 64 = i := by omega
    have hb := congrArg (fun z => z.testBit ((i + 45) % 64)) h
    simp only [rotl64, testBit_ofBits, hj, decide_True, Bool.true_and, e] at hb
    exact hb
  · rw [testBit_high_false hx (by omega), testBit_high_false hy (by omega)]

/-- The map `x ↦ x ^ ((x << 17) mod 2^64)` loses nothing. -/
theorem xor_shift17_injective (x y : Nat)
    (h : x ^^^ ((x <<< 17) % 2 ^ 64) = y ^^^ ((y <<< 17) % 2 ^ 64)) : x = y := by
  apply Nat.eq_of_testBit_eq
  intro i
  induction i using Nat.strong_induction_on with
  | _ i ih =>
    have hb := congrArg (fun z => z.testBit i) h
    simp only [Nat.testBit_xor, Nat.testBit_mod_two_pow, Nat.testBit_shiftLeft] at hb
    by_cases h17 : 17 ≤ i
    · have hprev := ih (i - 17) (by omega)
      rw [hprev] at hb
      generalize (decide (i < 64) && (decide (i ≥ 17) && y.testBit (i - 17))) = c at hb
      generalize x.testBit i = a at hb ⊢
      generalize y.testBit i = b at hb ⊢
      cases a <;> cases b <;> cases c <;> simp at hb ⊢
    · have hn : ¬ i ≥ 17 := h17
      simpa [hn] using hb

theorem xoshiro256p_state_injective (s t : Words) (hs : s.WF) (ht : t.WF)
    (h : (xoshiro256p s).2 = (xoshiro256p t).2) : s = t := by
  obtain ⟨s0, s1, s2, s3⟩ := s
  obtain ⟨t0, t1, t2, t3⟩ := t
  obtain ⟨hs0, hs1, hs2, hs3⟩ := hs
  obtain ⟨ht0, ht1, ht2, ht3⟩ := ht
  simp only at hs0 hs1 hs2 hs3 ht0 ht1 ht2 ht3
  have hxs : s3 ^^^ s1 < 2 ^ 64 := Nat.xor_lt_two_pow hs3 hs1
  have hxt : t3 ^^^ t1 < 2 ^ 64 := Nat.xor_lt_two_pow ht3 ht1
  simp only [xoshiro256p, Words.mk.injEq] at h
  obtain ⟨e0, e1, e2, e3⟩ := h
  rw [rol_idiom_eq_rotl64 _ hxs, rol_idiom_eq_rotl64 _ hxt] at e3
  have he : s3 ^^^ s1 = t3 ^^^ t1 := rotl64_injective _ _ hxs hxt e3
  rw [he] at e0
  have h0 : s0 = t0 := Nat.xor_left_injective e0
  have e12 : (s1 ^^^ (s2 ^^^ s0)) ^^^ ((s2 ^^^ s0) ^^^ ((s1 <<< 17) % 2 ^ 64)) =
      (t1 ^^^ (t2 ^^^ t0)) ^^^ ((t2 ^^^ t0) ^^^ ((t1 <<< 17) % 2 ^ 64)) := by
    rw [e1, e2]
  rw [Nat.xor_assoc, Nat.xor_cancel_left, Nat.xor_assoc t1, Nat.xor_cancel_left] at e12
  have h1 : s1 = t1 := xor_shift17_injective _ _ e12
  subst h0 h1
  have h3 : s3 = t3 := Nat.xor_left_injective he
  have h2 : s2 = t2 := Nat.xor_left_injective (Nat.xor_right_injective e1)
  rw [h2, h3]

/-- There are finitely many states of four 64-bit words. -/
theorem finite_wf_states : Finite { s : Words // s.WF } := by
  apply Finite.of_injective
    (fun s : { s : Words // s.WF } =>
      ((⟨s.1.w0, s.2.1⟩ : Fin (2 ^ 64)), (⟨s.1.w1, s.2.2.1⟩ : Fin (2 ^ 64)),
        (⟨s.1.w2, s.2.2.2.1⟩ : Fin (2 ^ 64)), (⟨s.1.w3, s.2.2.2.2⟩ : Fin (2 ^ 64))))
  rintro ⟨⟨a0, a1, a2, a3⟩, ha⟩ ⟨⟨b0, b1, b2, b3⟩, hb⟩ h
  simp only [Prod.mk.injEq, Fin.mk.injEq] at h
  obtain ⟨h0, h1, h2, h3⟩ := h
  subst h0 h1 h2 h3
  rfl

theorem xoshiro256p_state_surjective (t : Words) (ht : t.WF) :
    ∃ s : Words, s.WF ∧ (xoshiro256p s).2 = t := by
  haveI := finite_wf_states
  let f : { s : Words // s.WF } → { s : Words // s.WF } :=
    fun s => ⟨(xoshiro256p s.1).2, xoshiro256p_wf s.1 s.2⟩
  have hinj : Function.Injective f := by
    intro a b hab
    apply Subtype.ext
    exact xoshiro256p_state_injective a.1 b.1 a.2 b.2 (congrArg Subtype.val hab)
  obtain ⟨s, hs⟩ := (Finite.injective_iff_surjective.1 hinj) ⟨t, ht⟩
  exact ⟨s.1, s.2, congrArg Subtype.val hs⟩

/-- C17: on states of four 64-bit words the transition of `xoshiro256p` maps states to
states, two different states never step to the same state, every state is the step of some
state, and a state that is not all-zero never steps to the all-zero state. -/
theorem xoshiro256p_bijective :
    (∀ s : Words, s.WF → (xoshiro256p s).2.WF) ∧
      (∀ s t : Words, s.WF → t.WF → s ≠ t → (xoshiro256p s).2 ≠ (xoshiro256p t).2) ∧
      (∀ t : Words, t.WF → ∃ s : Words, s.WF ∧ (xoshiro256p s).2 = t) ∧
      (∀ s : Words, s.WF → s ≠ Words.mk 0 0 0 0 →
        (xoshiro256p s).2 ≠ Words.mk 0 0 0 0) := by
  refine ⟨xoshiro256p_wf, ?_, xoshiro256p_state_surjective, ?_⟩
  · intro s t hs ht hne h
    exact hne (xoshiro256p_state_injective s t hs ht h)
  · intro s hs hne h
    apply hne
    apply xoshiro256p_state_injective s (Words.mk 0 0 0 0) hs (by decide)
    rw [h]
    decide

/-- C17, at the states `(1, 2, 3, 4)` and `(1, 2, 3, 5)`. -/
theorem xoshiro256p_bijective_witness :
    (Words.mk 1 2 3 4).WF ∧ (Words.mk 1 2 3 5).WF ∧ Words.mk 1 2 3 4 ≠ Words.mk 1 2 3 5 ∧
      Words.mk 1 2 3 4 ≠ Words.mk 0 0 0 0 ∧
      (xoshiro256p (Words.mk 1 2 3 4)).2 ≠ (xoshiro256p (Words.mk 1 2 3 5)).2 ∧
      (xoshiro256p (Words.mk 1 2 3 4)).2 ≠ Words.mk 0 0 0 0 :=
  ⟨by decide, by decide, by decide, by decide,
    xoshiro256p_bijective.2.1 (Words.mk 1 2 3 4) (Words.mk 1 2 3 5) (by decide) (by decide)
      (by decide),
    xoshiro256p_bijective.2.2.2 (Words.mk 1 2 3 4) (by decide) (by decide)⟩

/-! ## `test.c` against `memory-pow.c` -/

/-- C18: for every state the generator of `test.c` stores in `*result` the value that the
generator of `memory-pow.c` returns and leaves the same state, and for every length `n ≥ 0`
of type `int` the function `fillWorkBuffer` of `test.c` gives what the fill loop of `compute2`
run for `n` words gives: the same buffer and the same final state, or undefined behaviour in
both when the buffer has fewer than `n` words. -/
theorem test_agrees_with_production :
    (∀ state : Words, Test.xoshiro256p state = xoshiro256p state) ∧
      ∀ (n : Int) (workBuffer : List Nat) (state : Words), 0 ≤ n → n < 2 ^ 31 →
        Test.fillWorkBuffer workBuffer n state = fillLoop n.toNat 0 state workBuffer ∧
          (n.toNat ≤ workBuffer.length →
            ∃ filled, Test.fillWorkBuffer workBuffer n state =
                some (stateAfter state n.toNat, filled) ∧
              fillLoop n.toNat 0 state workBuffer = some (stateAfter state n.toNat, filled) ∧
              ∀ i, i < n.toNat → filled[i]? = some (outputAt state i)) := by
  refine ⟨fun state => rfl, ?_⟩
  intro n workBuffer state h0 h31
  have e : Test.fillWorkBuffer workBuffer n state = fillLoop n.toNat 0 state workBuffer := by
    unfold Test.fillWorkBuffer toUInt32
    rw [fillWorkBufferLoop_eq_fillLoop]
    congr 1
    omega
  refine ⟨e, ?_⟩
  intro hlen
  obtain ⟨filled, ef, _, hin, _⟩ := fillLoop_spec n.toNat 0 state workBuffer (by omega)
  simp only [Nat.zero_add] at hin
  exact ⟨filled, by rw [e, ef], ef, hin⟩

/-- C18, at length 3, the state `(1, 2, 3, 4)` and a buffer of four words. -/
theorem test_agrees_with_production_witness :
    (0 : Int) ≤ 3 ∧ (3 : Int) < 2 ^ 31 ∧
      Test.fillWorkBuffer [0, 0, 0, 0] 3 (Words.mk 1 2 3 4) =
        some (Words.mk 211106635448322 211106232532999 211140593188866 9223547958715220736,
          [5, 211106232532999, 211106635186183, 0]) ∧
      Test.fillWorkBuffer [0, 0, 0, 0] 3 (Words.mk 1 2 3 4) =
        fillLoop (3 : Int).toNat 0 (Words.mk 1 2 3 4) [0, 0, 0, 0] :=
  ⟨by decide, by decide, by decide,
    (test_agrees_with_production.2 3 [0, 0, 0, 0] (Words.mk 1 2 3 4) (by decide)
      (by decide)).1⟩

/-! ## The 32-bit count -/

/-- C19: `numberOfLeadingZeros32` returns 32 on 0, `31 - ⌊log₂ i⌋` on every `i` with
`0 < i < 2^32`, and so 0 on every `i` with `2^31 ≤ i < 2^32`; its early exit is taken on
`i = 0` alone. -/
theorem numberOfLeadingZeros32_exact :
    numberOfLeadingZeros32 0 = 32 ∧
      (∀ i : Nat, 0 < i → i < 2 ^ 32 →
        numberOfLeadingZeros32 i = 31 - (Nat.log 2 i : Int) ∧
          numberOfLeadingZeros32 i =
            toInt32 ((toUInt32 (nlzStep 2 (nlzStep 4 (nlzStep 8 (nlzStep 16 (31, i))))).1 +
              2 ^ 32 - ((nlzStep 2 (nlzStep 4 (nlzStep 8 (nlzStep 16 (31, i))))).2 >>> 1)) %
                2 ^ 32)) ∧
      ∀ i : Nat, 2 ^ 31 ≤ i → i < 2 ^ 32 → numberOfLeadingZeros32 i = 0 := by
  refine ⟨by decide, ?_, ?_⟩
  · intro i hi hb
    refine ⟨numberOfLeadingZeros32_pos i hi hb, ?_⟩
    have hi0 : ¬ i ≤ 0 := by omega
    unfold numberOfLeadingZeros32
    rw [if_neg hi0]
  · intro i hi hb
    rw [numberOfLeadingZeros32_pos i (by omega) hb,
      @Nat.log_eq_of_pow_le_of_lt_pow 2 31 i hi hb]
    rfl

/-- C19, at `i = 12345` and at `i = 2^31`. -/
theorem numberOfLeadingZeros32_exact_witness :
    0 < 12345 ∧ 12345 < 2 ^ 32 ∧ 2 ^ 31 ≤ 2 ^ 31 ∧ 2 ^ 31 < 2 ^ 32 ∧
      numberOfLeadingZeros32 12345 = 18 ∧
      numberOfLeadingZeros32 12345 = 31 - (Nat.log 2 12345 : Int) ∧
      numberOfLeadingZeros32 (2 ^ 31) = 0 :=
  ⟨by decide, by decide, by decide, by decide, by decide,
    (numberOfLeadingZeros32_exact.2.1 12345 (by decide) (by decide)).1,
    numberOfLeadingZeros32_exact.2.2 (2 ^ 31) (by decide) (by decide)⟩

end MemoryPoW
